import Mathlib

/-
  Verification development for the rganalysis track-set grouping and
  gain-tag reconciliation engine.

  The Python source is shallowly embedded:
  * numeric gain/peak values (Python floats) are modelled as rationals;
  * a file's tag storage (mutagen's dict-like interface) is modelled as an
    association list from tag name to stored string value;
  * fallible operations (Python exceptions) return `Except`/`Option`;
  * the filesystem is abstracted as a membership predicate for the marker
    files consulted by `want_album_gain`.
-/

deriving instance DecidableEq for Except

namespace rganalysis

/-! ## Tag codec (rganalysis/common.py)

`format_gain`/`format_peak` render via Python's fixed-point string
formatting (`'{:.2f} dB'`, `'{:.6f}'`); `parse_gain` first tries a plain
`float()` conversion and falls back to the `parse('{value:f} dB', ...)`
pattern; `parse_peak` is a plain `float()` conversion.  Decimal rendering
is implemented with an explicit fuel argument so that it reduces inside
the kernel. -/

def digitChar (d : ℕ) : Char := Char.ofNat (48 + d)

def charVal (c : Char) : ℕ := c.toNat - 48

/-- Numeric value of a digit string, most significant digit first. -/
def strDigitsVal (cs : List Char) : ℕ := cs.foldl (fun a c => 10 * a + charVal c) 0

/-- Decimal rendering of a natural number; `fuel` bounds the number of digits. -/
def natToDecAux : ℕ → ℕ → List Char
  | 0, _ => []
  | fuel + 1, n => if n < 10 then [digitChar n] else natToDecAux fuel (n / 10) ++ [digitChar (n % 10)]

def natToDec (n : ℕ) : List Char := natToDecAux (n + 1) n

def padZeros (k : ℕ) (cs : List Char) : List Char := List.replicate (k - cs.length) '0' ++ cs

/-- Rounding used by Python's fixed-point formatting: the value scaled by
`10^k` rounded to the nearest integer.  (CPython rounds the underlying
binary double to nearest; ties are immaterial to the spec's claims.) -/
def roundScaled (k : ℕ) (q : ℚ) : ℤ := round (q * (10 : ℚ) ^ k)

/-- `q` rounded to `k` decimal places. -/
def roundDec (k : ℕ) (q : ℚ) : ℚ := (roundScaled k q : ℚ) / (10 : ℚ) ^ k

/-- Characters produced by `'{:.kf}'.format(q)` (for `k ≥ 1`, the only uses). -/
def renderFixedChars (k : ℕ) (q : ℚ) : List Char :=
  let n := roundScaled k q
  let a := n.natAbs
  (if n < 0 then ['-'] else []) ++
    natToDec (a / 10 ^ k) ++ '.' :: padZeros k (natToDec (a % 10 ^ k))

/-- `format_gain(gain)`: `'{:.2f} dB'.format(gain)`. -/
def format_gain (g : ℚ) : String := String.mk (renderFixedChars 2 g) ++ " dB"

/-- `format_peak(peak)`: `'{:.6f}'.format(peak)`. -/
def format_peak (p : ℚ) : String := String.mk (renderFixedChars 6 p)

/-- Sign handling shared by Python's `float()` and the `parse` library. -/
def splitSign (cs : List Char) : ℚ × List Char :=
  match cs with
  | [] => (1, [])
  | c :: rest => if c = '-' then (-1, rest) else if c = '+' then (1, rest) else (1, c :: rest)

/-- Unsigned decimal literal: `digits`, `digits.digits`, `digits.` or `.digits`. -/
def parseDecChars (cs : List Char) : Option ℚ :=
  let ip := cs.takeWhile Char.isDigit
  match cs.dropWhile Char.isDigit with
  | [] => if ip = [] then none else some (strDigitsVal ip : ℚ)
  | '.' :: fp =>
    if fp.all Char.isDigit ∧ (ip ≠ [] ∨ fp ≠ []) then
      some ((strDigitsVal ip : ℚ) + (strDigitsVal fp : ℚ) / (10 : ℚ) ^ fp.length)
    else none
  | _ => none

def parseFloatChars (cs : List Char) : Option ℚ :=
  let s := splitSign cs
  (parseDecChars s.2).map (fun v => s.1 * v)

/-- Model of Python `float(s)` on the decimal literals relevant to stored
tags (exponent, infinity and NaN forms do not occur in this code base). -/
def pyFloat (s : String) : Option ℚ := parseFloatChars s.data

/-- The `parse` library's `{:f}` fixed-point pattern: sign, digits, a
mandatory decimal point, digits. -/
def parseFixedChars (cs : List Char) : Option ℚ :=
  let s := splitSign cs
  let ip := s.2.takeWhile Char.isDigit
  match s.2.dropWhile Char.isDigit with
  | '.' :: fp =>
    if ip ≠ [] ∧ fp ≠ [] ∧ fp.all Char.isDigit then
      some (s.1 * ((strDigitsVal ip : ℚ) + (strDigitsVal fp : ℚ) / (10 : ℚ) ^ fp.length))
    else none
  | _ => none

/-- Model of `parse('{value:f} dB', s)`: the pattern is anchored, so the
string must end in the literal `" dB"` preceded by a fixed-point number. -/
def parseDbPattern (s : String) : Option ℚ :=
  match s.data.reverse with
  | 'B' :: 'd' :: ' ' :: rest => parseFixedChars rest.reverse
  | _ => none

/-- `parse_gain(gain)`: try `float(gain)`; on `ValueError` try the
`'{value:f} dB'` pattern; otherwise raise `ValueError`. -/
def parse_gain (s : String) : Except String ℚ :=
  match pyFloat s with
  | some v => .ok v
  | none =>
    match parseDbPattern s with
    | some v => .ok v
    | none => .error ("Could not parse gain value: " ++ s)

/-- `parse_peak(peak)`: `float(peak)`, raising `ValueError` on failure. -/
def parse_peak (s : String) : Except String ℚ :=
  match pyFloat s with
  | some v => .ok v
  | none => .error ("could not convert string to float: " ++ s)

/-- `parse_gain` with the `ValueError` swallowed, as the tag getters do. -/
def parseGainOpt (s : String) : Option ℚ := (parse_gain s).toOption

def parsePeakOpt (s : String) : Option ℚ := (parse_peak s).toOption

/-! ### Codec lemmas -/

theorem charVal_digitChar {d : ℕ} (h : d < 10) : charVal (digitChar d) = d := by
  interval_cases d <;> rfl

theorem isDigit_digitChar {d : ℕ} (h : d < 10) : (digitChar d).isDigit = true := by
  interval_cases d <;> rfl

theorem strDigitsVal_append_singleton (cs : List Char) (c : Char) :
    strDigitsVal (cs ++ [c]) = 10 * strDigitsVal cs + charVal c := by
  simp [strDigitsVal]

theorem natToDecAux_spec :
    ∀ fuel n, 1 ≤ fuel → n < 10 ^ fuel →
      strDigitsVal (natToDecAux fuel n) = n ∧
      (natToDecAux fuel n).all Char.isDigit = true ∧
      natToDecAux fuel n ≠ [] ∧
      (natToDecAux fuel n).length ≤ fuel := by
  intro fuel
  induction fuel with
  | zero => intro n h; omega
  | succ f ih =>
    intro n _ hn
    by_cases h10 : n < 10
    · refine ⟨?_, ?_, ?_, ?_⟩ <;>
        simp [natToDecAux, h10, strDigitsVal, charVal_digitChar h10, isDigit_digitChar h10]
    · have hf : 1 ≤ f := by
        rcases Nat.eq_zero_or_pos f with hf0 | hf0
        · subst hf0; simp at hn; omega
        · exact hf0
      have hdivlt : n / 10 < 10 ^ f := by
        have : n < 10 ^ f * 10 := by
          have : (10 : ℕ) ^ (f + 1) = 10 ^ f * 10 := by ring
          omega
        exact Nat.div_lt_of_lt_mul (by omega)
      obtain ⟨hv, hd, hne, hl⟩ := ih (n / 10) hf hdivlt
      have hmod : n % 10 < 10 := Nat.mod_lt _ (by omega)
      refine ⟨?_, ?_, ?_, ?_⟩
      · simp only [natToDecAux, if_neg h10]
        rw [strDigitsVal_append_singleton, hv, charVal_digitChar hmod]
        omega
      · simp only [natToDecAux, if_neg h10, List.all_append]
        simp [hd, isDigit_digitChar hmod]
      · simp [natToDecAux, if_neg h10]
      · simp only [natToDecAux, if_neg h10, List.length_append]
        simp only [List.length_cons, List.length_nil]
        omega

theorem natToDecAux_fuel_irrel :
    ∀ f g n, 1 ≤ f → n < 10 ^ f → 1 ≤ g → n < 10 ^ g →
      natToDecAux f n = natToDecAux g n := by
  intro f
  induction f with
  | zero => intro g n h; omega
  | succ f ih =>
    intro g n _ hnf hg hng
    match g, hg with
    | g + 1, _ =>
      by_cases h10 : n < 10
      · simp [natToDecAux, h10]
      · have hf : 1 ≤ f := by
          rcases Nat.eq_zero_or_pos f with hf0 | hf0
          · subst hf0; simp at hnf; omega
          · exact hf0
        have hg1 : 1 ≤ g := by
          rcases Nat.eq_zero_or_pos g with hg0 | hg0
          · subst hg0; simp at hng; omega
          · exact hg0
        have hdf : n / 10 < 10 ^ f := by
          have : (10 : ℕ) ^ (f + 1) = 10 ^ f * 10 := by ring
          exact Nat.div_lt_of_lt_mul (by omega)
        have hdg : n / 10 < 10 ^ g := by
          have : (10 : ℕ) ^ (g + 1) = 10 ^ g * 10 := by ring
          exact Nat.div_lt_of_lt_mul (by omega)
        simp only [natToDecAux, if_neg h10]
        rw [ih g (n / 10) hf hdf hg1 hdg]

theorem lt_ten_pow_succ (n : ℕ) : n < 10 ^ (n + 1) :=
  lt_of_lt_of_le (Nat.lt_pow_self (by omega) n) (Nat.pow_le_pow_right (by omega) (by omega))

theorem natToDec_spec (n : ℕ) :
    strDigitsVal (natToDec n) = n ∧ (natToDec n).all Char.isDigit = true ∧
      natToDec n ≠ [] := by
  have h := natToDecAux_spec (n + 1) n (by omega) (lt_ten_pow_succ n)
  exact ⟨h.1, h.2.1, h.2.2.1⟩

theorem natToDec_length_le {n k : ℕ} (hk : 1 ≤ k) (hn : n < 10 ^ k) :
    (natToDec n).length ≤ k := by
  have heq := natToDecAux_fuel_irrel (n + 1) k n (by omega)
    (lt_ten_pow_succ n) hk hn
  have h := natToDecAux_spec k n hk hn
  rw [natToDec, heq]
  exact h.2.2.2

theorem strDigitsVal_replicate_zero_append (j : ℕ) (cs : List Char) :
    strDigitsVal (List.replicate j '0' ++ cs) = strDigitsVal cs := by
  induction j with
  | zero => simp
  | succ j ih =>
    have : List.replicate (j + 1) '0' ++ cs = '0' :: (List.replicate j '0' ++ cs) := by
      simp [List.replicate_succ]
    rw [this]
    simpa [strDigitsVal, charVal] using ih

theorem padZeros_spec {k : ℕ} {cs : List Char} (hlen : cs.length ≤ k)
    (hdig : cs.all Char.isDigit = true) :
    strDigitsVal (padZeros k cs) = strDigitsVal cs ∧
      (padZeros k cs).length = k ∧ (padZeros k cs).all Char.isDigit = true := by
  refine ⟨strDigitsVal_replicate_zero_append _ _, ?_, ?_⟩
  · simp [padZeros]; omega
  · simp only [padZeros, List.all_append]
    have : ∀ j, (List.replicate j '0').all Char.isDigit = true := by
      intro j; induction j with
      | zero => rfl
      | succ j ih => rw [List.replicate_succ, List.all_cons, ih]; rfl
    simp [this, hdig]

theorem takeWhile_digit_append {ds rest : List Char}
    (hd : ds.all Char.isDigit = true)
    (hr : ∀ c, rest.head? = some c → c.isDigit = false) :
    (ds ++ rest).takeWhile Char.isDigit = ds ∧
      (ds ++ rest).dropWhile Char.isDigit = rest := by
  induction ds with
  | nil =>
    cases rest with
    | nil => simp
    | cons c cs =>
      have := hr c rfl
      simp [List.takeWhile, List.dropWhile, this]
  | cons d ds ih =>
    simp only [List.all_cons, Bool.and_eq_true] at hd
    obtain ⟨h1, h2⟩ := ih hd.2
    constructor
    · simp [List.takeWhile, hd.1, h1]
    · simp [List.dropWhile, hd.1, h2]

theorem splitSign_digit {cs : List Char}
    (h : ∀ c, cs.head? = some c → c.isDigit = true) : splitSign cs = (1, cs) := by
  cases cs with
  | nil => rfl
  | cons c r =>
    have hc := h c rfl
    have h1 : c ≠ '-' := by intro he; subst he; simp [Char.isDigit] at hc
    have h2 : c ≠ '+' := by intro he; subst he; simp [Char.isDigit] at hc
    simp [splitSign, h1, h2]

theorem head_digit_of_all {cs : List Char} (h : cs.all Char.isDigit = true) :
    ∀ c, cs.head? = some c → c.isDigit = true := by
  intro c hc
  cases cs with
  | nil => simp at hc
  | cons d r =>
    simp only [List.head?_cons, Option.some.injEq] at hc
    subst hc
    simp only [List.all_cons, Bool.and_eq_true] at h
    exact h.1

theorem parseDecChars_core {ics fcs : List Char}
    (hi : ics.all Char.isDigit = true) (_hine : ics ≠ [])
    (hf : fcs.all Char.isDigit = true) (hfne : fcs ≠ []) :
    parseDecChars (ics ++ '.' :: fcs) =
      some ((strDigitsVal ics : ℚ) + (strDigitsVal fcs : ℚ) / (10 : ℚ) ^ fcs.length) := by
  obtain ⟨htw, hdw⟩ := @takeWhile_digit_append ics ('.' :: fcs) hi
    (by intro c hc; simp only [List.head?_cons, Option.some.injEq] at hc; subst hc; rfl)
  simp [parseDecChars, htw, hdw, hf, hfne]

theorem parseFixedChars_core {ics fcs : List Char}
    (hi : ics.all Char.isDigit = true) (hine : ics ≠ [])
    (hf : fcs.all Char.isDigit = true) (hfne : fcs ≠ []) :
    parseFixedChars (ics ++ '.' :: fcs) =
      some ((strDigitsVal ics : ℚ) + (strDigitsVal fcs : ℚ) / (10 : ℚ) ^ fcs.length) := by
  obtain ⟨htw, hdw⟩ := @takeWhile_digit_append ics ('.' :: fcs) hi
    (by intro c hc; simp only [List.head?_cons, Option.some.injEq] at hc; subst hc; rfl)
  have hhead : ∀ c, (ics ++ '.' :: fcs).head? = some c → c.isDigit = true := by
    cases ics with
    | nil => exact absurd rfl hine
    | cons d r =>
      intro c hc
      simp only [List.cons_append, List.head?_cons, Option.some.injEq] at hc
      subst hc
      simp only [List.all_cons, Bool.and_eq_true] at hi
      exact hi.1
  have hsgn := splitSign_digit hhead
  simp [parseFixedChars, hsgn, htw, hdw, hi, hine, hf, hfne]

theorem div_mod_cast_eq (a k : ℕ) :
    ((a / 10 ^ k : ℕ) : ℚ) + ((a % 10 ^ k : ℕ) : ℚ) / (10 : ℚ) ^ k = (a : ℚ) / (10 : ℚ) ^ k := by
  have hnat : 10 ^ k * (a / 10 ^ k) + a % 10 ^ k = a := Nat.div_add_mod a (10 ^ k)
  have hq : (10 : ℚ) ^ k * ((a / 10 ^ k : ℕ) : ℚ) + ((a % 10 ^ k : ℕ) : ℚ) = (a : ℚ) := by
    exact_mod_cast congrArg (Nat.cast (R := ℚ)) hnat
  have hpow : ((10 : ℚ) ^ k) ≠ 0 := pow_ne_zero _ (by norm_num)
  field_simp
  linarith [hq]

theorem parse_renderFixed {k : ℕ} (hk : 1 ≤ k) (q : ℚ) :
    parseFixedChars (renderFixedChars k q) = some (roundDec k q) ∧
      parseFloatChars (renderFixedChars k q) = some (roundDec k q) := by
  have hpow : (0 : ℕ) < 10 ^ k := Nat.pos_pow_of_pos k (by omega)
  have hfpn : (roundScaled k q).natAbs % 10 ^ k < 10 ^ k := Nat.mod_lt _ hpow
  have hics := natToDec_spec ((roundScaled k q).natAbs / 10 ^ k)
  have hnd := natToDec_spec ((roundScaled k q).natAbs % 10 ^ k)
  have hndlen := natToDec_length_le hk hfpn
  have hpad := padZeros_spec hndlen hnd.2.1
  have hfne : padZeros k (natToDec ((roundScaled k q).natAbs % 10 ^ k)) ≠ [] := by
    intro h
    rw [h] at hpad
    simp at hpad
    omega
  have hfix := parseFixedChars_core hics.2.1 hics.2.2 hpad.2.2 hfne
  have hdec := parseDecChars_core hics.2.1 hics.2.2 hpad.2.2 hfne
  have hval : (strDigitsVal (natToDec ((roundScaled k q).natAbs / 10 ^ k)) : ℚ) +
      (strDigitsVal (padZeros k (natToDec ((roundScaled k q).natAbs % 10 ^ k))) : ℚ) /
        (10 : ℚ) ^ (padZeros k (natToDec ((roundScaled k q).natAbs % 10 ^ k))).length =
      ((roundScaled k q).natAbs : ℚ) / (10 : ℚ) ^ k := by
    rw [hics.1, hpad.1, hnd.1, hpad.2.1]
    exact div_mod_cast_eq _ k
  by_cases hneg : roundScaled k q < 0
  · have hrender : renderFixedChars k q =
        '-' :: (natToDec ((roundScaled k q).natAbs / 10 ^ k) ++
          '.' :: padZeros k (natToDec ((roundScaled k q).natAbs % 10 ^ k))) := by
      simp [renderFixedChars, hneg]
    have habs : (((roundScaled k q).natAbs : ℕ) : ℚ) = -((roundScaled k q : ℤ) : ℚ) := by
      rw [Int.cast_natAbs, abs_of_neg hneg]
      push_cast
      ring
    have hfinal : -(((roundScaled k q).natAbs : ℚ) / (10 : ℚ) ^ k) = roundDec k q := by
      rw [habs, roundDec]
      ring
    constructor
    · rw [hrender]
      simp only [parseFixedChars, splitSign]
      have := parseFixedChars_core hics.2.1 hics.2.2 hpad.2.2 hfne
      simp only [parseFixedChars] at this
      obtain ⟨htw, hdw⟩ := @takeWhile_digit_append (natToDec ((roundScaled k q).natAbs / 10 ^ k))
        ('.' :: padZeros k (natToDec ((roundScaled k q).natAbs % 10 ^ k))) hics.2.1
        (by intro c hc; simp only [List.head?_cons, Option.some.injEq] at hc; subst hc; rfl)
      simp [htw, hdw, hics.2.1, hics.2.2, hpad.2.2, hfne, hval, hfinal]
    · rw [hrender]
      simp only [parseFloatChars, splitSign]
      simp [hdec, hval, hfinal]
  · have hrender : renderFixedChars k q =
        natToDec ((roundScaled k q).natAbs / 10 ^ k) ++
          '.' :: padZeros k (natToDec ((roundScaled k q).natAbs % 10 ^ k)) := by
      simp [renderFixedChars, hneg]
    have habs : (((roundScaled k q).natAbs : ℕ) : ℚ) = ((roundScaled k q : ℤ) : ℚ) := by
      rw [Int.cast_natAbs, abs_of_nonneg (not_lt.mp hneg)]
    have hfinal : ((roundScaled k q).natAbs : ℚ) / (10 : ℚ) ^ k = roundDec k q := by
      rw [habs, roundDec]
    constructor
    · rw [hrender, hfix, hval, hfinal]
    · rw [hrender]
      have hhead : ∀ c, (natToDec ((roundScaled k q).natAbs / 10 ^ k) ++
          '.' :: padZeros k (natToDec ((roundScaled k q).natAbs % 10 ^ k))).head? = some c →
          c.isDigit = true := by
        cases hcs : natToDec ((roundScaled k q).natAbs / 10 ^ k) with
        | nil => exact absurd hcs hics.2.2
        | cons d r =>
          intro c hc
          simp only [List.cons_append, List.head?_cons, Option.some.injEq] at hc
          subst hc
          have hall := hics.2.1
          rw [hcs] at hall
          simp only [List.all_cons, Bool.and_eq_true] at hall
          exact hall.1
      have hsgn := splitSign_digit hhead
      simp [parseFloatChars, hsgn, hdec, hval, hfinal]

theorem parseDecChars_dot_nondigit {ics rest : List Char}
    (hi : ics.all Char.isDigit = true)
    (hrest : rest.all Char.isDigit = false) :
    parseDecChars (ics ++ '.' :: rest) = none := by
  obtain ⟨htw, hdw⟩ := @takeWhile_digit_append ics ('.' :: rest) hi
    (by intro c hc; simp only [List.head?_cons, Option.some.injEq] at hc; subst hc; rfl)
  simp [parseDecChars, htw, hdw, hrest]

theorem parseFloat_render_dB {k : ℕ} (hk : 1 ≤ k) (q : ℚ) :
    parseFloatChars (renderFixedChars k q ++ [' ', 'd', 'B']) = none := by
  have hpow : (0 : ℕ) < 10 ^ k := Nat.pos_pow_of_pos k (by omega)
  have hfpn : (roundScaled k q).natAbs % 10 ^ k < 10 ^ k := Nat.mod_lt _ hpow
  have hics := natToDec_spec ((roundScaled k q).natAbs / 10 ^ k)
  have hnd := natToDec_spec ((roundScaled k q).natAbs % 10 ^ k)
  have hpad := padZeros_spec (natToDec_length_le hk hfpn) hnd.2.1
  have hrest : ((padZeros k (natToDec ((roundScaled k q).natAbs % 10 ^ k))) ++
      [' ', 'd', 'B']).all Char.isDigit = false := by
    rw [List.all_append]
    simp
  have hnone := parseDecChars_dot_nondigit hics.2.1 hrest
  by_cases hneg : roundScaled k q < 0
  · have hrender : renderFixedChars k q ++ [' ', 'd', 'B'] =
        '-' :: (natToDec ((roundScaled k q).natAbs / 10 ^ k) ++
          '.' :: (padZeros k (natToDec ((roundScaled k q).natAbs % 10 ^ k)) ++ [' ', 'd', 'B'])) := by
      simp [renderFixedChars, hneg]
    rw [hrender]
    simp [parseFloatChars, splitSign, hnone]
  · have hrender : renderFixedChars k q ++ [' ', 'd', 'B'] =
        natToDec ((roundScaled k q).natAbs / 10 ^ k) ++
          '.' :: (padZeros k (natToDec ((roundScaled k q).natAbs % 10 ^ k)) ++ [' ', 'd', 'B']) := by
      simp [renderFixedChars, hneg]
    rw [hrender]
    have hhead : ∀ c, (natToDec ((roundScaled k q).natAbs / 10 ^ k) ++
        '.' :: (padZeros k (natToDec ((roundScaled k q).natAbs % 10 ^ k)) ++ [' ', 'd', 'B'])).head? =
        some c → c.isDigit = true := by
      cases hcs : natToDec ((roundScaled k q).natAbs / 10 ^ k) with
      | nil => exact absurd hcs hics.2.2
      | cons d r =>
        intro c hc
        simp only [List.cons_append, List.head?_cons, Option.some.injEq] at hc
        subst hc
        have hall := hics.2.1
        rw [hcs] at hall
        simp only [List.all_cons, Bool.and_eq_true] at hall
        exact hall.1
    simp [parseFloatChars, splitSign_digit hhead, hnone]

theorem data_format_gain (g : ℚ) :
    (format_gain g).data = renderFixedChars 2 g ++ [' ', 'd', 'B'] := by
  have h1 : (String.mk (renderFixedChars 2 g) ++ " dB").data =
      (String.mk (renderFixedChars 2 g)).data ++ " dB".data := String.data_append _ _
  have h2 : " dB".data = [' ', 'd', 'B'] := rfl
  simp only [format_gain, h2] at h1 ⊢
  exact h1

theorem pyFloat_format_gain (g : ℚ) : pyFloat (format_gain g) = none := by
  rw [pyFloat, data_format_gain]
  exact parseFloat_render_dB (by omega) g

theorem parseDb_format_gain (g : ℚ) :
    parseDbPattern (format_gain g) = some (roundDec 2 g) := by
  rw [parseDbPattern, data_format_gain]
  have hrev : (renderFixedChars 2 g ++ [' ', 'd', 'B']).reverse =
      'B' :: 'd' :: ' ' :: (renderFixedChars 2 g).reverse := by
    simp
  rw [hrev]
  simp only [List.reverse_reverse]
  exact (parse_renderFixed (by omega) g).1

/-- Round-trip for the gain codec: formatting then parsing recovers the
value rounded to 2 decimal places. -/
theorem parse_gain_format_gain (g : ℚ) :
    parse_gain (format_gain g) = .ok (roundDec 2 g) := by
  rw [parse_gain, pyFloat_format_gain, parseDb_format_gain]

/-- Round-trip for the peak codec: formatting then parsing recovers the
value rounded to 6 decimal places. -/
theorem parse_peak_format_peak (p : ℚ) :
    parse_peak (format_peak p) = .ok (roundDec 6 p) := by
  have h : pyFloat (format_peak p) = some (roundDec 6 p) := by
    rw [pyFloat, format_peak]
    exact (parse_renderFixed (by omega) p).2
  rw [parse_peak, h]

/-- C8: for every gain value g, `parse_gain(format_gain(g))` succeeds and
equals g rounded to 2 decimal places; for every peak p in `[0,1]`,
`parse_peak(format_peak(p))` succeeds and equals p rounded to 6 decimal
places; moreover `parse_gain` first attempts a direct float parse, on
failure attempts the `"<number> dB"` pattern, and fails with a parse error
only when both fail. -/
theorem C8_codec_roundtrip_and_fallback :
    (∀ g : ℚ, parse_gain (format_gain g) = .ok (roundDec 2 g)) ∧
    (∀ p : ℚ, 0 ≤ p → p ≤ 1 → parse_peak (format_peak p) = .ok (roundDec 6 p)) ∧
    (∀ s v, pyFloat s = some v → parse_gain s = .ok v) ∧
    (∀ s v, pyFloat s = none → parseDbPattern s = some v → parse_gain s = .ok v) ∧
    (∀ s, pyFloat s = none → parseDbPattern s = none →
      parse_gain s = .error ("Could not parse gain value: " ++ s)) := by
  refine ⟨parse_gain_format_gain, fun p _ _ => parse_peak_format_peak p, ?_, ?_, ?_⟩
  · intro s v h
    rw [parse_gain, h]
  · intro s v h1 h2
    rw [parse_gain, h1, h2]
  · intro s h1 h2
    rw [parse_gain, h1, h2]

theorem C8_codec_witness :
    parse_gain (format_gain (-(601 / 100) : ℚ)) = .ok (roundDec 2 (-(601 / 100) : ℚ)) ∧
    parse_peak (format_peak ((57 / 100) : ℚ)) = .ok (roundDec 6 ((57 / 100) : ℚ)) ∧
    parse_gain "17" = .ok (17 : ℚ) ∧
    parse_gain "-5.00 dB" = .ok (-5 : ℚ) ∧
    parse_gain "x" = .error ("Could not parse gain value: " ++ "x") :=
  ⟨C8_codec_roundtrip_and_fallback.1 _,
   C8_codec_roundtrip_and_fallback.2.1 _ (by norm_num) (by norm_num),
   C8_codec_roundtrip_and_fallback.2.2.1 "17" 17 (by with_unfolding_all decide),
   C8_codec_roundtrip_and_fallback.2.2.2.1 "-5.00 dB" (-5) (by with_unfolding_all decide)
     (by with_unfolding_all decide),
   C8_codec_roundtrip_and_fallback.2.2.2.2 "x" (by with_unfolding_all decide)
     (by with_unfolding_all decide)⟩

/-! ## Tag storage model (mutagen dict-like interface)

A file's tag storage is an association list from tag name to stored string
value.  `setTag` replaces the value of an existing key in place and appends
a missing key, matching dict assignment; `delTag` removes the key;
persistence (`track.save()`) is the identity on this model.  The easy tag
view exposes the canonical lowercase ReplayGain names; values are modelled
as the single string that the source reads with `[0]`. -/

abbrev Tags := List (String × String)

def getTag (ts : Tags) (k : String) : Option String :=
  (ts.find? (fun kv => kv.1 == k)).map Prod.snd

def setTag : Tags → String → String → Tags
  | [], k, v => [(k, v)]
  | kv :: rest, k, v => if kv.1 == k then (kv.1, v) :: rest else kv :: setTag rest k v

def delTag (ts : Tags) (k : String) : Tags := ts.filter (fun kv => kv.1 != k)

def hasTag (ts : Tags) (k : String) : Bool := ts.any (fun kv => kv.1 == k)

/-- Python `str.lower()`, per character (the tag names involved are ASCII). -/
def lowerStr (s : String) : String := String.mk (s.data.map Char.toLower)

/-- The module-level `rg_tags` tuple. -/
def rg_tags : List String :=
  ["replaygain_track_gain", "replaygain_track_peak", "replaygain_album_gain",
   "replaygain_album_peak", "replaygain_reference_loudness"]

/-- The lowercased historical tag-name set built inside `cleanup_tags`:
canonical names, the `QuodLibet::` namespaced variants, the `TXXX:`
serialization-wrapped variants, the RVA2 frame keys, and the legacy
typo names from commit ea9335d. -/
def tags_to_clean : List String :=
  (rg_tags ++ rg_tags.map (fun t => "QuodLibet::" ++ t) ++
    rg_tags.map (fun t => "TXXX:" ++ t) ++
    ["RVA2:track", "RVA2:album", "replaypeak_track_peak", "replaypeak_album_peak"]).map lowerStr

/-! ## RGTrack tag accessors (rganalysis/__init__.py)

Getters read the canonical tag, parse it, and swallow `KeyError` and
`ValueError` into an absent value.  The setters reproduce the source
as written, including the `None` branches of `_set_album_gain` and
`_set_album_peak`, which execute `del self.gain` / `del self.peak`
(deleting the TRACK tag) instead of deleting the album tag. -/

def track_gain (ts : Tags) : Option ℚ := (getTag ts "replaygain_track_gain").bind parseGainOpt

def track_peak (ts : Tags) : Option ℚ := (getTag ts "replaygain_track_peak").bind parsePeakOpt

def album_gain (ts : Tags) : Option ℚ := (getTag ts "replaygain_album_gain").bind parseGainOpt

def album_peak (ts : Tags) : Option ℚ := (getTag ts "replaygain_album_peak").bind parsePeakOpt

def del_gain (ts : Tags) : Tags :=
  if hasTag ts "replaygain_track_gain" then delTag ts "replaygain_track_gain" else ts

def del_peak (ts : Tags) : Tags :=
  if hasTag ts "replaygain_track_peak" then delTag ts "replaygain_track_peak" else ts

def del_album_gain (ts : Tags) : Tags :=
  if hasTag ts "replaygain_album_gain" then delTag ts "replaygain_album_gain" else ts

def del_album_peak (ts : Tags) : Tags :=
  if hasTag ts "replaygain_album_peak" then delTag ts "replaygain_album_peak" else ts

def set_gain (ts : Tags) (v : Option ℚ) : Tags :=
  match v with
  | none => del_gain ts
  | some g => setTag ts "replaygain_track_gain" (format_gain g)

def set_peak (ts : Tags) (v : Option ℚ) : Tags :=
  match v with
  | none => del_peak ts
  | some p => setTag ts "replaygain_track_peak" (format_peak p)

/-- `RGTrack._set_album_gain`: the `None` branch of the source reads
`del self.gain`, which deletes `replaygain_track_gain`. -/
def set_album_gain (ts : Tags) (v : Option ℚ) : Tags :=
  match v with
  | none => del_gain ts
  | some g => setTag ts "replaygain_album_gain" (format_gain g)

/-- `RGTrack._set_album_peak`: the `None` branch of the source reads
`del self.peak`, which deletes `replaygain_track_peak`. -/
def set_album_peak (ts : Tags) (v : Option ℚ) : Tags :=
  match v with
  | none => del_peak ts
  | some p => setTag ts "replaygain_album_peak" (format_peak p)

/-- `RGTrack.cleanup_tags`: delete every key whose lowercasing is in the
historical spelling set.  The source re-reads the file non-easy, deletes
matching keys, saves, and reloads; on the tag-map model this is a filter. -/
def cleanup_tags (ts : Tags) : Tags :=
  ts.filter (fun kv => !(tags_to_clean.contains (lowerStr kv.1)))

/-- `RGTrack.save(cleanup=True)`: snapshot the four gain-domain values,
clean up, restore the snapshot in source order (gain, peak, album_gain,
album_peak), persist.  `fixup_ID3` runs afterwards; it only touches ID3
containers and is modelled separately below. -/
def save_cleanup (ts : Tags) : Tags :=
  let tg := track_gain ts
  let tp := track_peak ts
  let ag := album_gain ts
  let ap := album_peak ts
  let ts1 := cleanup_tags ts
  set_album_peak (set_album_gain (set_peak (set_gain ts1 tg) tp) ag) ap

/-! ### Tag-map lemmas -/

theorem getTag_setTag_self (ts : Tags) (k v : String) :
    getTag (setTag ts k v) k = some v := by
  induction ts with
  | nil => simp [setTag, getTag]
  | cons kv rest ih =>
    by_cases h : kv.1 = k
    · simp [setTag, getTag, h]
    · simp only [setTag, getTag] at ih ⊢
      simp only [beq_iff_eq, h, if_false]
      rw [List.find?_cons_of_neg _ (by simpa using h)]
      exact ih

theorem getTag_setTag_ne (ts : Tags) {k k' : String} (v : String) (h : k' ≠ k) :
    getTag (setTag ts k v) k' = getTag ts k' := by
  induction ts with
  | nil => simp [setTag, getTag, Ne.symm h]
  | cons kv rest ih =>
    by_cases hk : kv.1 = k
    · subst hk
      simp only [setTag, beq_self_eq_true, if_true]
      simp [getTag, List.find?_cons, Ne.symm h]
    · simp only [setTag, beq_iff_eq, hk, if_false]
      by_cases hk' : kv.1 = k'
      · simp [getTag, List.find?_cons, hk']
      · simp only [getTag] at ih ⊢
        rw [List.find?_cons_of_neg _ (by simpa using hk'),
          List.find?_cons_of_neg _ (by simpa using hk')]
        exact ih

theorem mem_setTag {ts : Tags} {k v : String} {kv : String × String}
    (h : kv ∈ setTag ts k v) : kv.1 = k ∨ kv ∈ ts := by
  induction ts with
  | nil =>
    simp only [setTag, List.mem_singleton] at h
    subst h
    exact Or.inl rfl
  | cons kv' rest ih =>
    by_cases hk : kv'.1 = k
    · simp only [setTag, beq_iff_eq, hk, if_true, List.mem_cons] at h
      rcases h with h | h
      · subst h; exact Or.inl rfl
      · exact Or.inr (List.mem_cons_of_mem _ h)
    · simp only [setTag, beq_iff_eq, hk, if_false, List.mem_cons] at h
      rcases h with h | h
      · exact Or.inr (by simp [h])
      · rcases ih h with h' | h'
        · exact Or.inl h'
        · exact Or.inr (List.mem_cons_of_mem _ h')

theorem getTag_filter {ts : Tags} {p : String × String → Bool} {k : String}
    (h : ∀ v, p (k, v) = true) : getTag (ts.filter p) k = getTag ts k := by
  induction ts with
  | nil => rfl
  | cons kv rest ih =>
    by_cases hk : kv.1 = k
    · have : kv = (k, kv.2) := by
        cases kv; simp_all
      rw [this, List.filter_cons]
      simp [getTag, h kv.2]
    · rw [List.filter_cons]
      by_cases hp : p kv = true
      · simp only [hp, if_true]
        simp only [getTag] at ih ⊢
        rw [List.find?_cons_of_neg _ (by simpa using hk),
          List.find?_cons_of_neg _ (by simpa using hk)]
        exact ih
      · simp only [hp, if_false]
        simp only [getTag] at ih ⊢
        rw [List.find?_cons_of_neg _ (by simpa using hk)]
        exact ih

/-- C1: for every Track whose four gain-domain values are currently stored,
`save()` with cleanup enabled snapshots them, deletes every historical
ReplayGain tag spelling (case-insensitively), restores the snapshot, and
persists; afterwards the file holds the four snapshotted values under the
canonical tag names, no non-canonical historical spelling remains, and
unrelated tags are untouched. -/
theorem C1_save_cleanup_canonical (ts : Tags) (tg tp ag ap : ℚ)
    (h1 : track_gain ts = some tg) (h2 : track_peak ts = some tp)
    (h3 : album_gain ts = some ag) (h4 : album_peak ts = some ap) :
    getTag (save_cleanup ts) "replaygain_track_gain" = some (format_gain tg) ∧
    getTag (save_cleanup ts) "replaygain_track_peak" = some (format_peak tp) ∧
    getTag (save_cleanup ts) "replaygain_album_gain" = some (format_gain ag) ∧
    getTag (save_cleanup ts) "replaygain_album_peak" = some (format_peak ap) ∧
    (∀ kv ∈ save_cleanup ts, lowerStr kv.1 ∈ tags_to_clean →
      kv.1 = "replaygain_track_gain" ∨ kv.1 = "replaygain_track_peak" ∨
      kv.1 = "replaygain_album_gain" ∨ kv.1 = "replaygain_album_peak") ∧
    (∀ k, lowerStr k ∉ tags_to_clean → getTag (save_cleanup ts) k = getTag ts k) := by
  have hs : save_cleanup ts =
      setTag (setTag (setTag (setTag (cleanup_tags ts)
        "replaygain_track_gain" (format_gain tg))
        "replaygain_track_peak" (format_peak tp))
        "replaygain_album_gain" (format_gain ag))
        "replaygain_album_peak" (format_peak ap) := by
    simp only [save_cleanup, h1, h2, h3, h4, set_gain, set_peak, set_album_gain, set_album_peak]
  refine ⟨?_, ?_, ?_, ?_, ?_, ?_⟩
  · rw [hs, getTag_setTag_ne _ _ (by decide), getTag_setTag_ne _ _ (by decide),
      getTag_setTag_ne _ _ (by decide), getTag_setTag_self]
  · rw [hs, getTag_setTag_ne _ _ (by decide), getTag_setTag_ne _ _ (by decide),
      getTag_setTag_self]
  · rw [hs, getTag_setTag_ne _ _ (by decide), getTag_setTag_self]
  · rw [hs, getTag_setTag_self]
  · intro kv hkv hlow
    rw [hs] at hkv
    rcases mem_setTag hkv with h | hkv
    · exact Or.inr (Or.inr (Or.inr h))
    rcases mem_setTag hkv with h | hkv
    · exact Or.inr (Or.inr (Or.inl h))
    rcases mem_setTag hkv with h | hkv
    · exact Or.inr (Or.inl h)
    rcases mem_setTag hkv with h | hkv
    · exact Or.inl h
    exfalso
    rw [cleanup_tags, List.mem_filter] at hkv
    have hfalse := hkv.2
    simp only [Bool.not_eq_true'] at hfalse
    have htrue : tags_to_clean.contains (lowerStr kv.1) = true := List.elem_iff.mpr hlow
    rw [hfalse] at htrue
    exact Bool.false_ne_true htrue
  · intro k hk
    have hne1 : k ≠ "replaygain_track_gain" := by
      intro he; subst he; exact hk (by decide)
    have hne2 : k ≠ "replaygain_track_peak" := by
      intro he; subst he; exact hk (by decide)
    have hne3 : k ≠ "replaygain_album_gain" := by
      intro he; subst he; exact hk (by decide)
    have hne4 : k ≠ "replaygain_album_peak" := by
      intro he; subst he; exact hk (by decide)
    rw [hs, getTag_setTag_ne _ _ hne4, getTag_setTag_ne _ _ hne3,
      getTag_setTag_ne _ _ hne2, getTag_setTag_ne _ _ hne1]
    apply getTag_filter
    intro v
    simp only [Bool.not_eq_true']
    by_cases hc : tags_to_clean.contains (lowerStr k) = true
    · exact absurd (List.elem_iff.mp hc) hk
    · exact Bool.not_eq_true _ ▸ hc

theorem C1_save_cleanup_witness :
    getTag (save_cleanup [("album", "X"), ("replaygain_track_gain", "-6.00 dB"),
      ("replaygain_track_peak", "0.900000"), ("replaygain_album_gain", "-7.50 dB"),
      ("replaygain_album_peak", "0.800000"), ("TXXX:replaygain_track_gain", "-1.00 dB"),
      ("replaypeak_album_peak", "0.5")]) "replaygain_track_gain" = some (format_gain (-6)) ∧
    getTag (save_cleanup [("album", "X"), ("replaygain_track_gain", "-6.00 dB"),
      ("replaygain_track_peak", "0.900000"), ("replaygain_album_gain", "-7.50 dB"),
      ("replaygain_album_peak", "0.800000"), ("TXXX:replaygain_track_gain", "-1.00 dB"),
      ("replaypeak_album_peak", "0.5")]) "replaygain_track_peak" = some (format_peak (9 / 10)) ∧
    getTag (save_cleanup [("album", "X"), ("replaygain_track_gain", "-6.00 dB"),
      ("replaygain_track_peak", "0.900000"), ("replaygain_album_gain", "-7.50 dB"),
      ("replaygain_album_peak", "0.800000"), ("TXXX:replaygain_track_gain", "-1.00 dB"),
      ("replaypeak_album_peak", "0.5")]) "replaygain_album_gain" = some (format_gain (-(15 / 2))) ∧
    getTag (save_cleanup [("album", "X"), ("replaygain_track_gain", "-6.00 dB"),
      ("replaygain_track_peak", "0.900000"), ("replaygain_album_gain", "-7.50 dB"),
      ("replaygain_album_peak", "0.800000"), ("TXXX:replaygain_track_gain", "-1.00 dB"),
      ("replaypeak_album_peak", "0.5")]) "replaygain_album_peak" = some (format_peak (4 / 5)) := by
  have h := C1_save_cleanup_canonical
    [("album", "X"), ("replaygain_track_gain", "-6.00 dB"),
      ("replaygain_track_peak", "0.900000"), ("replaygain_album_gain", "-7.50 dB"),
      ("replaygain_album_peak", "0.800000"), ("TXXX:replaygain_track_gain", "-1.00 dB"),
      ("replaypeak_album_peak", "0.5")]
    (-6) (9 / 10) (-(15 / 2)) (4 / 5)
    (by with_unfolding_all decide) (by with_unfolding_all decide)
    (by with_unfolding_all decide) (by with_unfolding_all decide)
  exact ⟨h.1, h.2.1, h.2.2.1, h.2.2.2.1⟩

/-- C2 (code bug): the claim says setting the album_gain accessor to the
absent value removes `replaygain_album_gain` and leaves
`replaygain_track_gain` unchanged (likewise for peaks).  The source's
`_set_album_gain` executes `del self.gain` in its `None` branch, so the
code instead deletes the TRACK tag and keeps the album tag.  This theorem
evaluates the embedded code at a failing input. -/
theorem C2_album_setter_deletes_track_tag :
    getTag (set_album_gain [("replaygain_track_gain", "-6.00 dB"),
      ("replaygain_album_gain", "-7.00 dB"), ("replaygain_track_peak", "0.900000"),
      ("replaygain_album_peak", "0.800000")] none) "replaygain_album_gain" =
        some "-7.00 dB" ∧
    getTag (set_album_gain [("replaygain_track_gain", "-6.00 dB"),
      ("replaygain_album_gain", "-7.00 dB"), ("replaygain_track_peak", "0.900000"),
      ("replaygain_album_peak", "0.800000")] none) "replaygain_track_gain" = none ∧
    getTag (set_album_peak [("replaygain_track_gain", "-6.00 dB"),
      ("replaygain_album_gain", "-7.00 dB"), ("replaygain_track_peak", "0.900000"),
      ("replaygain_album_peak", "0.800000")] none) "replaygain_album_peak" =
        some "0.800000" ∧
    getTag (set_album_peak [("replaygain_track_gain", "-6.00 dB"),
      ("replaygain_album_gain", "-7.00 dB"), ("replaygain_track_peak", "0.900000"),
      ("replaygain_album_peak", "0.800000")] none) "replaygain_track_peak" = none := by
  decide

/-! ## RGTrack objects and grouping keys -/

/-- `os.path.dirname` (POSIX `posixpath.dirname`): everything up to and
including the last slash, then trailing slashes stripped unless the head
consists only of slashes. -/
def dirname (p : String) : String :=
  let headRev := p.data.reverse.dropWhile (fun c => c ≠ '/')
  if headRev ≠ [] ∧ headRev.any (fun c => c ≠ '/') then
    String.mk (headRev.dropWhile (fun c => c = '/')).reverse
  else String.mk headRev.reverse

/-- `get_multi`: return the value for the first present key, with the
default `['']` read at index 0. -/
def get_multi (ts : Tags) : List String → String
  | [] => ""
  | k :: rest =>
    match getTag ts k with
    | some v => v
    | none => get_multi ts rest

def get_album (ts : Tags) : String := get_multi ts ["albumsort", "album"]

def get_albumartist (ts : Tags) : String :=
  get_multi ts ["albumartistsort", "albumartist", "artistsort", "artist"]

def get_albumid (ts : Tags) : String :=
  get_multi ts ["album_grouping_key", "labelid", "musicbrainz_albumid"]

def get_discnumber (ts : Tags) : String :=
  match getTag ts "discnumber" with
  | some v => v
  | none => ""

/-- One audio file as wrapped by `RGTrack`: its path, the module-qualified
class name of its mutagen type (`get_full_classname`), and its tag store. -/
structure RGTrack where
  filename : String
  ftype : String
  tags : Tags

def RGTrack.directory (t : RGTrack) : String := dirname t.filename

/-- `RGTrack.track_set_key`: (directory, filetype, album, album artist,
album ID, discnumber), as a list of its six string components. -/
def RGTrack.track_set_key (t : RGTrack) : List String :=
  [t.directory, t.ftype, get_album t.tags, get_albumartist t.tags,
   get_albumid t.tags, get_discnumber t.tags]

/-- `RGTrack.has_valid_rgdata`: both track gain and track peak present. -/
def RGTrack.has_valid_rgdata (t : RGTrack) : Bool :=
  (track_gain t.tags).isSome && (track_peak t.tags).isSome

/-! ## RGTrackSet -/

def track_gain_signal_filenames : List String := ["TRACKGAIN", ".TRACKGAIN", "_TRACKGAIN"]

/-- `os.path.flatten` for the directory/marker-name pairs used here. -/
def joinPath (d f : String) : String :=
  if d = "" then f
  else if d.data.getLast? = some '/' then d ++ f
  else d ++ "/" ++ f

/-- A track set: the tracks of the filename-keyed dict in insertion order,
the configured gain type, and the filesystem abstracted as an existence
predicate (for the marker files).  The constructor's invariants (at least
one track, all keys equal) appear as hypotheses where needed. -/
structure RGTrackSet where
  tracks : List RGTrack
  gain_type : String
  fileExists : String → Bool

def RGTrackSet.directory (s : RGTrackSet) : String :=
  match s.tracks with
  | [] => ""
  | t :: _ => t.directory

def RGTrackSet.track_set_key (s : RGTrackSet) : List String :=
  match s.tracks with
  | [] => []
  | t :: _ => t.track_set_key

/-- Python string ordering (by code point), as a boolean for sorting. -/
def strLeb (a b : String) : Bool := decide (a.data.map Char.toNat ≤ b.data.map Char.toNat)

/-- `sorted(self.RGTracks.keys())`. -/
def RGTrackSet.filenames (s : RGTrackSet) : List String :=
  (s.tracks.map RGTrack.filename).mergeSort strLeb

/-- Python `x is y` against a freshly constructed tuple literal: object
identity, therefore always `False`. -/
def pyIsFreshTuple (_x _y : List String) : Bool := false

/-- `RGTrackSet.is_multitrack_album`: the source's albumless check,
`self.track_set_key()[0:1] is ('','')`, compares the length-1 slice with a
fresh 2-tuple by object identity (`is`), so it never fires. -/
def RGTrackSet.is_multitrack_album (s : RGTrackSet) : Bool :=
  !(decide (s.tracks.length ≤ 1) || pyIsFreshTuple (s.track_set_key.take 1) ["", ""])

/-- `RGTrackSet.want_album_gain`; raises `TypeError` on an unknown gain_type. -/
def RGTrackSet.want_album_gain (s : RGTrackSet) : Except String Bool :=
  if s.is_multitrack_album then
    if s.gain_type = "album" then .ok true
    else if s.gain_type = "track" then .ok false
    else if s.gain_type = "auto" then
      .ok (!(track_gain_signal_filenames.any (fun f => s.fileExists (joinPath s.directory f))))
    else .error "RGTrackSet.gain_type must be either track, album, or auto"
  else .ok false

/-- `_get_common_value_for_all_tracks` composed with the exception handling
of the set-level getters: the values are collected into a Python set; more
than one distinct value raises `ValueError` and an empty set raises
`KeyError` on `pop`, both of which the getter swallows into `None`. -/
def commonValue (vs : List (Option ℚ)) : Option ℚ :=
  match vs.dedup with
  | [v] => v
  | _ => none

/-- Set-level `_get_gain` (the album gain getter). -/
def RGTrackSet.get_gain (s : RGTrackSet) : Option ℚ :=
  commonValue (s.tracks.map (fun t => album_gain t.tags))

/-- Set-level `_get_peak` (the album peak getter). -/
def RGTrackSet.get_peak (s : RGTrackSet) : Option ℚ :=
  commonValue (s.tracks.map (fun t => album_peak t.tags))

/-- `RGTrackSet.has_valid_rgdata`: the per-track loop runs first (so an
invalid member short-circuits before `want_album_gain` can raise). -/
def RGTrackSet.has_valid_rgdata (s : RGTrackSet) : Except String Bool :=
  if s.tracks.all RGTrack.has_valid_rgdata then
    s.want_album_gain.map (fun w =>
      if w then s.get_gain.isSome && s.get_peak.isSome
      else s.get_gain.isNone && s.get_peak.isNone)
  else .ok false

/-- The per-file result of `GainComputer.compute_gain`. -/
structure RGInfo where
  track_gain : ℚ
  track_peak : ℚ
  album_gain : ℚ
  album_peak : ℚ

def lookupInfo (ri : List (String × RGInfo)) (k : String) : Option RGInfo :=
  (ri.find? (fun kv => kv.1 == k)).map Prod.snd

/-- `RGTrackSet.do_gain` (with no `gain_type` override, as the idempotence
claim exercises it).  The external gain backend is a parameter returning
the filename-keyed result dict; the returned boolean records whether the
backend was invoked. -/
def RGTrackSet.do_gain (s : RGTrackSet)
    (backend : List String → Except String (List (String × RGInfo)))
    (force : Bool) : Except String (RGTrackSet × Bool) := do
  let w ← s.want_album_gain
  let gt := if w then "album" else "track"
  let valid ← s.has_valid_rgdata
  if valid && !force then
    return (s, false)
  else
    let rginfo ← backend s.filenames
    let tracks1 ← s.tracks.mapM (fun t =>
      match lookupInfo rginfo t.filename with
      | none => Except.error ("KeyError: " ++ t.filename)
      | some info => Except.ok { t with
          tags := set_peak (set_gain t.tags (some info.track_gain)) (some info.track_peak) })
    let tracks2 ←
      if gt = "album" then
        match rginfo with
        | [] => Except.error "StopIteration"
        | (_, info) :: _ => Except.ok (tracks1.map (fun t => { t with
            tags := set_album_peak (set_album_gain t.tags (some info.album_gain))
              (some info.album_peak) }))
      else
        Except.ok (tracks1.map (fun t => { t with
          tags := del_album_peak (del_album_gain t.tags) }))
    let tracks3 := tracks2.map (fun t => { t with tags := save_cleanup t.tags })
    return ({ s with tracks := tracks3 }, true)

/-! ### Characterization of the set-level album getters -/

theorem commonValue_all_eq {vs : List (Option ℚ)} {v : Option ℚ}
    (hne : vs ≠ []) (h : ∀ x ∈ vs, x = v) : commonValue vs = v := by
  have hv : v ∈ vs.dedup := by
    rw [List.mem_dedup]
    cases vs with
    | nil => exact absurd rfl hne
    | cons a rest => exact h a (List.mem_cons_self a rest) ▸ List.mem_cons_self a rest
  have hsub : ∀ x ∈ vs.dedup, x = v := fun x hx => h x (List.mem_dedup.mp hx)
  have hnodup := vs.nodup_dedup
  cases hd : vs.dedup with
  | nil => rw [hd] at hv; exact absurd hv (List.not_mem_nil v)
  | cons a rest =>
    cases rest with
    | nil =>
      have ha : a = v := hsub a (by rw [hd]; exact List.mem_cons_self a [])
      simp [commonValue, hd, ha]
    | cons b rest2 =>
      exfalso
      have ha : a = v := hsub a (by rw [hd]; simp)
      have hb : b = v := hsub b (by rw [hd]; simp)
      rw [hd, ha, hb] at hnodup
      simp at hnodup

theorem commonValue_eq_none_of_two {vs : List (Option ℚ)} {a b : Option ℚ}
    (ha : a ∈ vs) (hb : b ∈ vs) (hab : a ≠ b) : commonValue vs = none := by
  have ha' : a ∈ vs.dedup := List.mem_dedup.mpr ha
  have hb' : b ∈ vs.dedup := List.mem_dedup.mpr hb
  cases hd : vs.dedup with
  | nil => rw [hd] at ha'; exact absurd ha' (List.not_mem_nil a)
  | cons x rest =>
    cases rest with
    | nil =>
      rw [hd] at ha' hb'
      simp only [List.mem_singleton] at ha' hb'
      exact absurd (ha'.trans hb'.symm) hab
    | cons y rest2 => simp [commonValue, hd]

theorem commonValue_eq_some_iff {vs : List (Option ℚ)} (hne : vs ≠ []) (g : ℚ) :
    commonValue vs = some g ↔ ∀ x ∈ vs, x = some g := by
  constructor
  · intro h x hx
    cases hd : vs.dedup with
    | nil => exact absurd ((List.dedup_eq_nil _).mp hd) hne
    | cons a rest =>
      cases rest with
      | nil =>
        have hcv : commonValue vs = a := by simp [commonValue, hd]
        rw [h] at hcv
        have hx' : x ∈ vs.dedup := List.mem_dedup.mpr hx
        rw [hd] at hx'
        simp only [List.mem_singleton] at hx'
        rw [hx', ← hcv]
      | cons b rest2 =>
        have hnone : commonValue vs = none := by simp [commonValue, hd]
        rw [h] at hnone
        exact absurd hnone (by simp)
  · intro h
    exact commonValue_all_eq hne h

theorem not_exists_common_iff {vs : List (Option ℚ)} (hne : vs ≠ []) :
    (¬ ∃ g : ℚ, ∀ x ∈ vs, x = some g) ↔
      ((∀ x ∈ vs, x = none) ∨ ∃ a ∈ vs, ∃ b ∈ vs, a ≠ b) := by
  constructor
  · intro h
    by_cases hall : ∀ x ∈ vs, x = none
    · exact Or.inl hall
    · push_neg at hall
      obtain ⟨a, ha, hanone⟩ := hall
      obtain ⟨ga, hga⟩ := Option.ne_none_iff_exists'.mp hanone
      by_cases h2 : ∀ x ∈ vs, x = some ga
      · exact absurd ⟨ga, h2⟩ h
      · push_neg at h2
        obtain ⟨b, hb, hbne⟩ := h2
        exact Or.inr ⟨a, ha, b, hb, by rw [hga]; exact fun he => hbne he.symm⟩
  · rintro (hall | ⟨a, ha, b, hb, hab⟩) ⟨g, hg⟩
    · cases vs with
      | nil => exact hne rfl
      | cons x rest =>
        have h1 := hall x (List.mem_cons_self x rest)
        have h2 := hg x (List.mem_cons_self x rest)
        rw [h1] at h2
        exact Option.noConfusion h2
    · exact hab ((hg a ha).trans (hg b hb).symm)

theorem get_gain_eq_some_iff (s : RGTrackSet) (hne : s.tracks ≠ []) (g : ℚ) :
    s.get_gain = some g ↔ ∀ t ∈ s.tracks, album_gain t.tags = some g := by
  rw [RGTrackSet.get_gain,
    commonValue_eq_some_iff (by simpa using hne) g]
  constructor
  · intro h t ht
    exact h _ (List.mem_map_of_mem _ ht)
  · intro h x hx
    obtain ⟨t, ht, rfl⟩ := List.mem_map.mp hx
    exact h t ht

theorem get_peak_eq_some_iff (s : RGTrackSet) (hne : s.tracks ≠ []) (p : ℚ) :
    s.get_peak = some p ↔ ∀ t ∈ s.tracks, album_peak t.tags = some p := by
  rw [RGTrackSet.get_peak,
    commonValue_eq_some_iff (by simpa using hne) p]
  constructor
  · intro h t ht
    exact h _ (List.mem_map_of_mem _ ht)
  · intro h x hx
    obtain ⟨t, ht, rfl⟩ := List.mem_map.mp hx
    exact h t ht

theorem get_gain_eq_none_iff (s : RGTrackSet) (hne : s.tracks ≠ []) :
    s.get_gain = none ↔
      ((∀ t ∈ s.tracks, album_gain t.tags = none) ∨
        ∃ t₁ ∈ s.tracks, ∃ t₂ ∈ s.tracks, album_gain t₁.tags ≠ album_gain t₂.tags) := by
  have h1 : s.get_gain = none ↔ ¬ ∃ g : ℚ, s.get_gain = some g := by
    cases hcv : s.get_gain with
    | none => simp
    | some v => simp [hcv]
  rw [h1]
  have h2 : (∃ g : ℚ, s.get_gain = some g) ↔
      ∃ g : ℚ, ∀ t ∈ s.tracks, album_gain t.tags = some g :=
    exists_congr fun g => get_gain_eq_some_iff s hne g
  rw [h2]
  have h3 := @not_exists_common_iff
    (s.tracks.map (fun t => album_gain t.tags)) (by simpa using hne)
  constructor
  · intro h
    rcases h3.mp (by
      intro ⟨g, hg⟩
      exact h ⟨g, fun t ht => hg _ (List.mem_map_of_mem _ ht)⟩) with hall | ⟨a, ha, b, hb, hab⟩
    · exact Or.inl fun t ht => hall _ (List.mem_map_of_mem _ ht)
    · obtain ⟨t₁, ht₁, rfl⟩ := List.mem_map.mp ha
      obtain ⟨t₂, ht₂, rfl⟩ := List.mem_map.mp hb
      exact Or.inr ⟨t₁, ht₁, t₂, ht₂, hab⟩
  · rintro (hall | ⟨t₁, ht₁, t₂, ht₂, hab⟩) ⟨g, hg⟩
    · obtain ⟨t, ht⟩ := List.exists_mem_of_ne_nil s.tracks hne
      have h1 := hall t ht
      have h2 := hg t ht
      rw [h1] at h2
      exact Option.noConfusion h2
    · exact hab ((hg t₁ ht₁).trans (hg t₂ ht₂).symm)

theorem get_peak_eq_none_iff (s : RGTrackSet) (hne : s.tracks ≠ []) :
    s.get_peak = none ↔
      ((∀ t ∈ s.tracks, album_peak t.tags = none) ∨
        ∃ t₁ ∈ s.tracks, ∃ t₂ ∈ s.tracks, album_peak t₁.tags ≠ album_peak t₂.tags) := by
  have h1 : s.get_peak = none ↔ ¬ ∃ p : ℚ, s.get_peak = some p := by
    cases hcv : s.get_peak with
    | none => simp
    | some v => simp [hcv]
  rw [h1]
  have h2 : (∃ p : ℚ, s.get_peak = some p) ↔
      ∃ p : ℚ, ∀ t ∈ s.tracks, album_peak t.tags = some p :=
    exists_congr fun p => get_peak_eq_some_iff s hne p
  rw [h2]
  have h3 := @not_exists_common_iff
    (s.tracks.map (fun t => album_peak t.tags)) (by simpa using hne)
  constructor
  · intro h
    rcases h3.mp (by
      intro ⟨p, hp⟩
      exact h ⟨p, fun t ht => hp _ (List.mem_map_of_mem _ ht)⟩) with hall | ⟨a, ha, b, hb, hab⟩
    · exact Or.inl fun t ht => hall _ (List.mem_map_of_mem _ ht)
    · obtain ⟨t₁, ht₁, rfl⟩ := List.mem_map.mp ha
      obtain ⟨t₂, ht₂, rfl⟩ := List.mem_map.mp hb
      exact Or.inr ⟨t₁, ht₁, t₂, ht₂, hab⟩
  · rintro (hall | ⟨t₁, ht₁, t₂, ht₂, hab⟩) ⟨p, hp⟩
    · obtain ⟨t, ht⟩ := List.exists_mem_of_ne_nil s.tracks hne
      have h1 := hall t ht
      have h2 := hp t ht
      rw [h1] at h2
      exact Option.noConfusion h2
    · exact hab ((hp t₁ ht₁).trans (hp t₂ ht₂).symm)

/-- C3 (corrected): the set-level album gain/peak getter has only TWO
distinguishable outcomes, not three: it returns the agreed value when all
members store the same parsed value, and `none` BOTH when no member has
the tag and when members disagree — `ValueError` from
`_get_common_value_for_all_tracks` is swallowed into `None` by `_get_gain`
/`_get_peak`, collapsing the disagreement state into the absent state. -/
theorem C3_amended_getter_two_states (s : RGTrackSet) (hne : s.tracks ≠ []) :
    (∀ g : ℚ, (∀ t ∈ s.tracks, album_gain t.tags = some g) → s.get_gain = some g) ∧
    ((∀ t ∈ s.tracks, album_gain t.tags = none) → s.get_gain = none) ∧
    (∀ t₁ ∈ s.tracks, ∀ t₂ ∈ s.tracks,
      album_gain t₁.tags ≠ album_gain t₂.tags → s.get_gain = none) ∧
    (∀ p : ℚ, (∀ t ∈ s.tracks, album_peak t.tags = some p) → s.get_peak = some p) ∧
    ((∀ t ∈ s.tracks, album_peak t.tags = none) → s.get_peak = none) ∧
    (∀ t₁ ∈ s.tracks, ∀ t₂ ∈ s.tracks,
      album_peak t₁.tags ≠ album_peak t₂.tags → s.get_peak = none) := by
  refine ⟨?_, ?_, ?_, ?_, ?_, ?_⟩
  · intro g h
    exact (get_gain_eq_some_iff s hne g).mpr h
  · intro h
    exact (get_gain_eq_none_iff s hne).mpr (Or.inl h)
  · intro t₁ ht₁ t₂ ht₂ hab
    exact (get_gain_eq_none_iff s hne).mpr (Or.inr ⟨t₁, ht₁, t₂, ht₂, hab⟩)
  · intro p h
    exact (get_peak_eq_some_iff s hne p).mpr h
  · intro h
    exact (get_peak_eq_none_iff s hne).mpr (Or.inl h)
  · intro t₁ ht₁ t₂ ht₂ hab
    exact (get_peak_eq_none_iff s hne).mpr (Or.inr ⟨t₁, ht₁, t₂, ht₂, hab⟩)

theorem C3_amended_witness :
    RGTrackSet.get_gain ⟨[⟨"/m/a.flac", "F", [("replaygain_album_gain", "-5.00 dB")]⟩,
      ⟨"/m/b.flac", "F", [("replaygain_album_gain", "-5.00 dB")]⟩], "auto", fun _ => false⟩ =
        some (-5) ∧
    RGTrackSet.get_gain ⟨[⟨"/m/a.flac", "F", [("replaygain_album_gain", "-1.00 dB")]⟩,
      ⟨"/m/b.flac", "F", [("replaygain_album_gain", "-2.00 dB")]⟩], "auto", fun _ => false⟩ =
        none ∧
    RGTrackSet.get_peak ⟨[⟨"/m/a.flac", "F", []⟩,
      ⟨"/m/b.flac", "F", []⟩], "auto", fun _ => false⟩ = none :=
  ⟨(C3_amended_getter_two_states _ (List.cons_ne_nil _ _)).1 (-5)
      (by with_unfolding_all decide),
   (C3_amended_getter_two_states _ (List.cons_ne_nil _ _)).2.2.1
      ⟨"/m/a.flac", "F", [("replaygain_album_gain", "-1.00 dB")]⟩ (by simp)
      ⟨"/m/b.flac", "F", [("replaygain_album_gain", "-2.00 dB")]⟩ (by simp)
      (by with_unfolding_all decide),
   (C3_amended_getter_two_states _ (List.cons_ne_nil _ _)).2.2.2.2.1
      (by with_unfolding_all decide)⟩

/-- C3 counterexample: a concrete set whose members disagree on the album
gain tag and a concrete set where every member lacks the tag give the
same getter result (`none`), so the disagreement signal is not distinct
from the absent signal as the claim requires. -/
theorem C3_counterexample_disagreement_equals_absent :
    album_gain [("replaygain_album_gain", "-1.00 dB")] ≠
      album_gain [("replaygain_album_gain", "-2.00 dB")] ∧
    RGTrackSet.get_gain ⟨[⟨"/m/a.flac", "F", [("replaygain_album_gain", "-1.00 dB")]⟩,
      ⟨"/m/b.flac", "F", [("replaygain_album_gain", "-2.00 dB")]⟩], "auto", fun _ => false⟩ =
      none ∧
    album_gain ([] : Tags) = none ∧
    RGTrackSet.get_gain ⟨[⟨"/m/a.flac", "F", []⟩, ⟨"/m/b.flac", "F", []⟩],
      "auto", fun _ => false⟩ = none := by
  with_unfolding_all decide

/-- C4 (corrected): `has_valid_rgdata` is equivalent to: every member has
track gain and peak, AND — when album gain is wanted — all members agree
on a stored album gain and on a stored album peak; when album gain is NOT
wanted, the set-level getters must return `none`, which holds both when
the tags are absent everywhere AND when members disagree.  (The claim's
assertion that member disagreement always makes the set invalid fails in
the not-wanted case: disagreement collapses to `None`, which the code
accepts as "absent".) -/
theorem C4_amended_valid_characterization (s : RGTrackSet) (hne : s.tracks ≠ []) :
    (s.want_album_gain = .ok true →
      (s.has_valid_rgdata = .ok true ↔
        (∀ t ∈ s.tracks, t.has_valid_rgdata = true) ∧
        (∃ g : ℚ, ∀ t ∈ s.tracks, album_gain t.tags = some g) ∧
        (∃ p : ℚ, ∀ t ∈ s.tracks, album_peak t.tags = some p))) ∧
    (s.want_album_gain = .ok false →
      (s.has_valid_rgdata = .ok true ↔
        (∀ t ∈ s.tracks, t.has_valid_rgdata = true) ∧
        ((∀ t ∈ s.tracks, album_gain t.tags = none) ∨
          ∃ t₁ ∈ s.tracks, ∃ t₂ ∈ s.tracks, album_gain t₁.tags ≠ album_gain t₂.tags) ∧
        ((∀ t ∈ s.tracks, album_peak t.tags = none) ∨
          ∃ t₁ ∈ s.tracks, ∃ t₂ ∈ s.tracks, album_peak t₁.tags ≠ album_peak t₂.tags))) := by
  constructor
  · intro hw
    by_cases hall : s.tracks.all RGTrack.has_valid_rgdata = true
    · rw [RGTrackSet.has_valid_rgdata, if_pos hall, hw]
      simp only [Except.map, Except.ok.injEq, if_true]
      rw [Bool.and_eq_true, Option.isSome_iff_exists, Option.isSome_iff_exists]
      constructor
      · rintro ⟨⟨g, hg⟩, ⟨p, hp⟩⟩
        exact ⟨List.all_eq_true.mp hall, ⟨g, (get_gain_eq_some_iff s hne g).mp hg⟩,
          ⟨p, (get_peak_eq_some_iff s hne p).mp hp⟩⟩
      · rintro ⟨_, ⟨g, hg⟩, ⟨p, hp⟩⟩
        exact ⟨⟨g, (get_gain_eq_some_iff s hne g).mpr hg⟩,
          ⟨p, (get_peak_eq_some_iff s hne p).mpr hp⟩⟩
    · rw [RGTrackSet.has_valid_rgdata, if_neg hall]
      constructor
      · intro h
        exact absurd h (by simp)
      · rintro ⟨h, _⟩
        exact absurd (List.all_eq_true.mpr h) hall
  · intro hw
    by_cases hall : s.tracks.all RGTrack.has_valid_rgdata = true
    · rw [RGTrackSet.has_valid_rgdata, if_pos hall, hw]
      simp only [Except.map, Except.ok.injEq, Bool.false_eq_true, if_false,
        Bool.and_eq_true, Option.isNone_iff_eq_none]
      constructor
      · rintro ⟨hg, hp⟩
        refine ⟨List.all_eq_true.mp hall, ?_, ?_⟩
        · exact (get_gain_eq_none_iff s hne).mp hg
        · exact (get_peak_eq_none_iff s hne).mp hp
      · rintro ⟨_, hg, hp⟩
        exact ⟨(get_gain_eq_none_iff s hne).mpr hg, (get_peak_eq_none_iff s hne).mpr hp⟩
    · rw [RGTrackSet.has_valid_rgdata, if_neg hall]
      constructor
      · intro h
        exact absurd h (by simp)
      · rintro ⟨h, _⟩
        exact absurd (List.all_eq_true.mpr h) hall

theorem C4_amended_witness :
    RGTrackSet.has_valid_rgdata ⟨[⟨"/m/a.flac", "F",
      [("replaygain_track_gain", "-6.00 dB"), ("replaygain_track_peak", "0.900000")]⟩],
      "auto", fun _ => false⟩ = .ok true :=
  ((C4_amended_valid_characterization _ (List.cons_ne_nil _ _)).2
      (by with_unfolding_all decide)).mpr
    ⟨by with_unfolding_all decide,
     Or.inl (by with_unfolding_all decide),
     Or.inl (by with_unfolding_all decide)⟩

/-- C4 counterexample: a two-track set with `gain_type="track"` (album
gain not wanted) whose members have full track data but DISAGREE on the
stored album gain; the claim says any member disagreement on album values
makes the set invalid, yet the code reports it as valid. -/
theorem C4_counterexample_disagreement_valid :
    RGTrackSet.want_album_gain ⟨[⟨"/m/a.flac", "F",
      [("replaygain_track_gain", "-6.00 dB"), ("replaygain_track_peak", "0.900000"),
        ("replaygain_album_gain", "-1.00 dB")]⟩,
      ⟨"/m/b.flac", "F",
      [("replaygain_track_gain", "-6.50 dB"), ("replaygain_track_peak", "0.800000"),
        ("replaygain_album_gain", "-2.00 dB")]⟩], "track", fun _ => false⟩ = .ok false ∧
    album_gain [("replaygain_track_gain", "-6.00 dB"), ("replaygain_track_peak", "0.900000"),
      ("replaygain_album_gain", "-1.00 dB")] ≠
      album_gain [("replaygain_track_gain", "-6.50 dB"), ("replaygain_track_peak", "0.800000"),
        ("replaygain_album_gain", "-2.00 dB")] ∧
    RGTrackSet.has_valid_rgdata ⟨[⟨"/m/a.flac", "F",
      [("replaygain_track_gain", "-6.00 dB"), ("replaygain_track_peak", "0.900000"),
        ("replaygain_album_gain", "-1.00 dB")]⟩,
      ⟨"/m/b.flac", "F",
      [("replaygain_track_gain", "-6.50 dB"), ("replaygain_track_peak", "0.800000"),
        ("replaygain_album_gain", "-2.00 dB")]⟩], "track", fun _ => false⟩ = .ok true := by
  with_unfolding_all decide

/-- C5 (code bug): the claim (and `is_multitrack_album`'s own docstring)
says a set whose key has an empty album-title component never wants album
gain.  The source's check `self.track_set_key()[0:1] is ('','')` slices
one element and compares it against a fresh tuple with `is` (object
identity), so it is always False: a two-track set with an empty album
title and `gain_type="album"` still gets `want_album_gain() == True`. -/
theorem C5_empty_album_title_still_wants_album_gain :
    get_album ([] : Tags) = "" ∧
    RGTrackSet.is_multitrack_album ⟨[⟨"/m/a.flac", "F", []⟩, ⟨"/m/b.flac", "F", []⟩],
      "album", fun _ => false⟩ = true ∧
    RGTrackSet.want_album_gain ⟨[⟨"/m/a.flac", "F", []⟩, ⟨"/m/b.flac", "F", []⟩],
      "album", fun _ => false⟩ = .ok true := by
  with_unfolding_all decide

/-- C6: on a track set whose ReplayGain data is already valid, `do_gain`
with `force=False` returns without invoking the gain backend (the result
is independent of the backend and the invoked-flag is false) and without
modifying any member track's tags (the state is returned unchanged);
hence a second `do_gain(force=False)` on a set valid after the first call
performs no writes. -/
theorem C6_do_gain_skips_when_valid (s : RGTrackSet)
    (h : s.has_valid_rgdata = .ok true) :
    ∀ backend, s.do_gain backend false = .ok (s, false) := by
  have hwex : ∃ w, s.want_album_gain = .ok w := by
    by_cases hall : s.tracks.all RGTrack.has_valid_rgdata = true
    · rw [RGTrackSet.has_valid_rgdata, if_pos hall] at h
      cases hwag : s.want_album_gain with
      | error e => rw [hwag] at h; exact absurd h (by simp [Except.map])
      | ok w => exact ⟨w, rfl⟩
    · rw [RGTrackSet.has_valid_rgdata, if_neg hall] at h
      exact absurd h (by simp)
  obtain ⟨w, hw⟩ := hwex
  intro backend
  rw [RGTrackSet.do_gain]
  simp [hw, h, Bind.bind, Except.bind, pure, Except.pure]

theorem C6_do_gain_witness :
    RGTrackSet.do_gain ⟨[⟨"/m/a.flac", "F",
      [("replaygain_track_gain", "-6.00 dB"), ("replaygain_track_peak", "0.900000")]⟩],
      "auto", fun _ => false⟩ (fun _ => .error "backend never invoked") false =
    .ok (⟨[⟨"/m/a.flac", "F",
      [("replaygain_track_gain", "-6.00 dB"), ("replaygain_track_peak", "0.900000")]⟩],
      "auto", fun _ => false⟩, false) :=
  C6_do_gain_skips_when_valid _ (by with_unfolding_all decide) _

/-! ## Dual-encoding reconciler (rganalysis/fixup_id3.py) -/

/-- A structured RVA2 relative-volume-adjustment frame: channel number,
gain in dB, peak as a linear amplitude. -/
structure RVA2Frame where
  channel : ℤ
  gain : ℚ
  peak : ℚ

/-- The non-easy view of an ID3 tag container: the text frames keyed by
their full names (`TXXX:…` for the free-text ReplayGain tags) and the two
structured frames the reconciler reads. -/
structure ID3Tags where
  frames : Tags
  rva2_track : Option RVA2Frame
  rva2_album : Option RVA2Frame

/-- A file as loaded by `MusicFile(fname, easy=False)`: either an ID3
container or some other tag format. -/
inductive MFile where
  | nonID3 (tags : Tags)
  | id3 (t : ID3Tags)

/-- The channel filter applied to each RVA2 frame: only the channel-1
("master") sub-record is honored. -/
def masterOnly (o : Option RVA2Frame) : Option RVA2Frame :=
  match o with
  | some f => if f.channel ≠ 1 then none else some f
  | none => none

/-- The `if track_rva2:` block: write the frame's peak then gain into the
free-text tags. -/
def writeTrackTXXX (frames : Tags) (o : Option RVA2Frame) : Tags :=
  match o with
  | some f => setTag (setTag frames "TXXX:replaygain_track_peak" (format_peak f.peak))
      "TXXX:replaygain_track_gain" (format_gain f.gain)
  | none => frames

/-- The `if album_rva2:` block. -/
def writeAlbumTXXX (frames : Tags) (o : Option RVA2Frame) : Tags :=
  match o with
  | some f => setTag (setTag frames "TXXX:replaygain_album_peak" (format_peak f.peak))
      "TXXX:replaygain_album_gain" (format_gain f.gain)
  | none => frames

/-- `fixup_ID3`: no-op on non-ID3 files; otherwise honor only the
channel-1 RVA2 sub-records and write their peak/gain into the free-text
`TXXX:replaygain_*` tags, leaving the structured frames untouched. -/
def fixup_ID3 : MFile → MFile
  | .nonID3 tags => .nonID3 tags
  | .id3 t => .id3
      { frames := writeAlbumTXXX (writeTrackTXXX t.frames (masterOnly t.rva2_track))
          (masterOnly t.rva2_album),
        rva2_track := t.rva2_track, rva2_album := t.rva2_album }

def MFile.framesOf : MFile → Tags
  | .nonID3 tags => tags
  | .id3 t => t.frames

def MFile.rva2TrackOf : MFile → Option RVA2Frame
  | .nonID3 _ => none
  | .id3 t => t.rva2_track

def MFile.rva2AlbumOf : MFile → Option RVA2Frame
  | .nonID3 _ => none
  | .id3 t => t.rva2_album

theorem masterOnly_master {f : RVA2Frame} (h : f.channel = 1) :
    masterOnly (some f) = some f := by
  simp [masterOnly, h]

theorem masterOnly_nonmaster {f : RVA2Frame} (h : f.channel ≠ 1) :
    masterOnly (some f) = none := by
  simp [masterOnly, h]

theorem fixup_ID3_id3_frames (t : ID3Tags) :
    (fixup_ID3 (.id3 t)).framesOf =
      writeAlbumTXXX (writeTrackTXXX t.frames (masterOnly t.rva2_track))
        (masterOnly t.rva2_album) := rfl

/-- C9: the dual-encoding reconciler is a no-op on non-ID3 containers;
on ID3 it copies the channel-1 RVA2 track (resp. album) frame's gain and
peak, formatted via the codec, into the free-text `TXXX:replaygain_*`
tags; frames whose channel differs from 1 are ignored, and the structured
RVA2 frames themselves are never modified. -/
theorem C9_fixup_id3_reconciler :
    (∀ tags, fixup_ID3 (.nonID3 tags) = .nonID3 tags) ∧
    (∀ t : ID3Tags, (fixup_ID3 (.id3 t)).rva2TrackOf = t.rva2_track ∧
      (fixup_ID3 (.id3 t)).rva2AlbumOf = t.rva2_album) ∧
    (∀ t : ID3Tags, ∀ f, t.rva2_track = some f → f.channel = 1 →
      getTag (fixup_ID3 (.id3 t)).framesOf "TXXX:replaygain_track_gain" =
          some (format_gain f.gain) ∧
      getTag (fixup_ID3 (.id3 t)).framesOf "TXXX:replaygain_track_peak" =
          some (format_peak f.peak)) ∧
    (∀ t : ID3Tags, ∀ f, t.rva2_album = some f → f.channel = 1 →
      getTag (fixup_ID3 (.id3 t)).framesOf "TXXX:replaygain_album_gain" =
          some (format_gain f.gain) ∧
      getTag (fixup_ID3 (.id3 t)).framesOf "TXXX:replaygain_album_peak" =
          some (format_peak f.peak)) ∧
    (∀ t : ID3Tags, (∀ f, t.rva2_track = some f → f.channel ≠ 1) →
      (∀ f, t.rva2_album = some f → f.channel ≠ 1) →
      (fixup_ID3 (.id3 t)).framesOf = t.frames) := by
  refine ⟨fun tags => rfl, fun t => ⟨rfl, rfl⟩, ?_, ?_, ?_⟩
  · intro t f hf hch
    rw [fixup_ID3_id3_frames, hf, masterOnly_master hch]
    have htg : getTag (writeTrackTXXX t.frames (some f)) "TXXX:replaygain_track_gain" =
        some (format_gain f.gain) := by
      rw [writeTrackTXXX, getTag_setTag_self]
    have htp : getTag (writeTrackTXXX t.frames (some f)) "TXXX:replaygain_track_peak" =
        some (format_peak f.peak) := by
      rw [writeTrackTXXX, getTag_setTag_ne _ _ (by decide), getTag_setTag_self]
    cases ha : t.rva2_album with
    | none => exact ⟨htg, htp⟩
    | some g =>
      by_cases hgc : g.channel = 1
      · rw [masterOnly_master hgc]
        constructor
        · rw [writeAlbumTXXX, getTag_setTag_ne _ _ (by decide),
            getTag_setTag_ne _ _ (by decide), htg]
        · rw [writeAlbumTXXX, getTag_setTag_ne _ _ (by decide),
            getTag_setTag_ne _ _ (by decide), htp]
      · rw [masterOnly_nonmaster hgc]
        exact ⟨htg, htp⟩
  · intro t f hf hch
    rw [fixup_ID3_id3_frames, hf, masterOnly_master hch]
    constructor
    · rw [writeAlbumTXXX, getTag_setTag_self]
    · rw [writeAlbumTXXX, getTag_setTag_ne _ _ (by decide), getTag_setTag_self]
  · intro t htr hal
    have h1 : masterOnly t.rva2_track = none := by
      cases hf : t.rva2_track with
      | none => rfl
      | some g => exact masterOnly_nonmaster (htr g hf)
    have h2 : masterOnly t.rva2_album = none := by
      cases hf : t.rva2_album with
      | none => rfl
      | some g => exact masterOnly_nonmaster (hal g hf)
    rw [fixup_ID3_id3_frames, h1, h2]
    rfl

theorem C9_fixup_id3_witness :
    getTag (fixup_ID3 (.id3 ⟨[("TIT2", "x")], some ⟨1, -3, 9 / 10⟩,
        some ⟨2, -4, 4 / 5⟩⟩)).framesOf "TXXX:replaygain_track_gain" =
      some (format_gain (-3)) ∧
    getTag (fixup_ID3 (.id3 ⟨[("TIT2", "x")], some ⟨1, -3, 9 / 10⟩,
        some ⟨2, -4, 4 / 5⟩⟩)).framesOf "TXXX:replaygain_track_peak" =
      some (format_peak (9 / 10)) ∧
    (fixup_ID3 (.id3 ⟨[("TIT2", "x")], some ⟨3, -5, 1⟩, none⟩)).framesOf = [("TIT2", "x")] :=
  ⟨(C9_fixup_id3_reconciler.2.2.1 _ ⟨1, -3, 9 / 10⟩ rfl rfl).1,
   (C9_fixup_id3_reconciler.2.2.1 _ ⟨1, -3, 9 / 10⟩ rfl rfl).2,
   C9_fixup_id3_reconciler.2.2.2.2 _
     (fun f hf => by rw [Option.some.injEq] at hf; rw [← hf]; decide)
     (fun f hf => Option.noConfusion hf)⟩

/-! ## bs1770gain backend (rganalysis/backends/bs1770gain.py) -/

/-- `os.path.basename` (POSIX): the part after the last slash. -/
def basename (p : String) : String :=
  String.mk (p.data.reverse.takeWhile (fun c => c ≠ '/')).reverse

/-- One `<track file=…>` element of the tool's XML output. -/
structure ToolTrack where
  file : String
  gain : ℚ
  peak : ℚ

/-- The tool's XML output: the album summary and the track elements. -/
structure ToolOutput where
  album_gain : ℚ
  album_peak : ℚ
  tracks : List ToolTrack

/-- The dict comprehension `{os.path.basename(f): f for f in fnames}`:
later entries overwrite earlier ones for an equal basename. -/
def basenamesToFnames (fnames : List String) : List (String × String) :=
  fnames.foldl (fun d f => setTag d (basename f) f) []

/-- `Bs1770gainGainComputer.compute_gain`, with the external process
abstracted as its parsed XML output: the duplicate-basename pre-check
runs before the tool is consulted, then each XML track is keyed back to
the original full path through the basename dict (a missing basename is
a `KeyError`). -/
def compute_gain (fnames : List String) (tool : ToolOutput) :
    Except String (List (String × RGInfo)) :=
  let b2f := basenamesToFnames fnames
  if b2f.length ≠ fnames.length then
    .error "The bs1770gain backend cannot handle multiple files with the same basename."
  else
    tool.tracks.mapM (fun tt =>
      match getTag b2f tt.file with
      | none => Except.error ("KeyError: " ++ tt.file)
      | some fname => Except.ok (fname,
          { track_gain := tt.gain, track_peak := tt.peak,
            album_gain := tool.album_gain, album_peak := tool.album_peak }))

/-- The XML bs1770gain actually produces for a run over `fnames`: one
track element per input file, `@file` holding the basename. -/
def standardToolOutput (fnames : List String) (g p : String → ℚ) (ag ap : ℚ) : ToolOutput :=
  ⟨ag, ap, fnames.map (fun f => ⟨basename f, g f, p f⟩)⟩

/-! ### Dictionary lemmas for the basename pre-check -/

theorem keys_setTag (d : List (String × String)) (k v : String) :
    (setTag d k v).map Prod.fst =
      if d.any (fun kv => kv.1 == k) then d.map Prod.fst else d.map Prod.fst ++ [k] := by
  induction d with
  | nil => simp [setTag]
  | cons kv rest ih =>
    by_cases h : kv.1 = k
    · simp [setTag, h]
    · simp only [setTag, beq_iff_eq, h, if_false, List.map_cons, List.any_cons, ih]
      by_cases h2 : rest.any (fun kv => kv.1 == k) = true
      · simp [h2, h]
      · simp only [Bool.not_eq_true] at h2
        simp [h2, h]

theorem mem_keys_setTag {d : List (String × String)} {k v k' : String} :
    k' ∈ (setTag d k v).map Prod.fst ↔ k' ∈ d.map Prod.fst ∨ k' = k := by
  rw [keys_setTag]
  by_cases h : d.any (fun kv => kv.1 == k) = true
  · rw [if_pos h]
    constructor
    · exact Or.inl
    · rintro (hm | rfl)
      · exact hm
      · obtain ⟨kv, hkv, hk⟩ := List.any_eq_true.mp h
        rw [beq_iff_eq] at hk
        rw [← hk]
        exact List.mem_map_of_mem _ hkv
  · rw [if_neg h, List.mem_append, List.mem_singleton]


theorem nodup_keys_setTag {d : List (String × String)} (k v : String)
    (h : (d.map Prod.fst).Nodup) : ((setTag d k v).map Prod.fst).Nodup := by
  rw [keys_setTag]
  by_cases hany : d.any (fun kv => kv.1 == k) = true
  · rw [if_pos hany]; exact h
  · rw [if_neg hany]
    rw [List.nodup_append]
    refine ⟨h, List.nodup_singleton k, ?_⟩
    intro a ha hk
    rw [List.mem_singleton] at hk
    subst hk
    obtain ⟨kv, hkv, rfl⟩ := List.mem_map.mp ha
    exact hany (List.any_eq_true.mpr ⟨kv, hkv, beq_self_eq_true _⟩)

theorem b2f_keys_spec (fnames : List String) :
    ∀ d : List (String × String),
      ((d.map Prod.fst).Nodup →
        (((fnames.foldl (fun d f => setTag d (basename f) f) d).map Prod.fst).Nodup)) ∧
      (∀ k, k ∈ (fnames.foldl (fun d f => setTag d (basename f) f) d).map Prod.fst ↔
        k ∈ d.map Prod.fst ∨ k ∈ fnames.map basename) := by
  induction fnames with
  | nil => intro d; exact ⟨fun h => h, fun k => by simp⟩
  | cons f rest ih =>
    intro d
    constructor
    · intro h
      exact ((ih (setTag d (basename f) f)).1) (nodup_keys_setTag _ _ h)
    · intro k
      rw [List.foldl_cons, ((ih (setTag d (basename f) f)).2) k, mem_keys_setTag]
      simp only [List.map_cons, List.mem_cons]
      tauto

theorem dedup_length_eq_iff {α : Type} [DecidableEq α] (l : List α) :
    l.dedup.length = l.length ↔ l.Nodup := by
  constructor
  · intro h
    have heq := (List.dedup_sublist l).eq_of_length h
    rw [← heq]
    exact l.nodup_dedup
  · intro h
    rw [h.dedup]

theorem b2f_length_eq_iff (fnames : List String) :
    (basenamesToFnames fnames).length = fnames.length ↔ (fnames.map basename).Nodup := by
  have hspec := b2f_keys_spec fnames []
  have hnodup : ((basenamesToFnames fnames).map Prod.fst).Nodup :=
    hspec.1 (by simp)
  have hmem : ∀ k, k ∈ (basenamesToFnames fnames).map Prod.fst ↔ k ∈ fnames.map basename := by
    intro k
    rw [basenamesToFnames, hspec.2 k]
    simp
  have hfin : ((basenamesToFnames fnames).map Prod.fst).toFinset =
      (fnames.map basename).toFinset := by
    ext k
    simp only [List.mem_toFinset]
    exact hmem k
  have hlen1 : (basenamesToFnames fnames).length =
      ((basenamesToFnames fnames).map Prod.fst).length := (List.length_map _ _).symm
  have hlen2 : ((basenamesToFnames fnames).map Prod.fst).length =
      ((basenamesToFnames fnames).map Prod.fst).toFinset.card :=
    (List.toFinset_card_of_nodup hnodup).symm
  have hlen3 : (fnames.map basename).toFinset.card = (fnames.map basename).dedup.length :=
    List.card_toFinset _
  have hlen4 : fnames.length = (fnames.map basename).length := (List.length_map _ _).symm
  rw [hlen1, hlen2, hfin, hlen3, hlen4]
  exact dedup_length_eq_iff _

theorem getTag_foldl_absent (fnames : List String) :
    ∀ (d : List (String × String)) (k : String), ¬ k ∈ fnames.map basename →
      getTag (fnames.foldl (fun d f => setTag d (basename f) f) d) k = getTag d k := by
  induction fnames with
  | nil => intro d k _; rfl
  | cons f rest ih =>
    intro d k hk
    simp only [List.map_cons, List.mem_cons, not_or] at hk
    rw [List.foldl_cons, ih _ k (by exact hk.2), getTag_setTag_ne _ _ hk.1]

theorem getTag_b2f {fnames : List String} (hnd : (fnames.map basename).Nodup) :
    ∀ f ∈ fnames, getTag (basenamesToFnames fnames) (basename f) = some f := by
  rw [basenamesToFnames]
  suffices h : ∀ (d : List (String × String)), (fnames.map basename).Nodup →
      ∀ f ∈ fnames, getTag (fnames.foldl (fun d f => setTag d (basename f) f) d) (basename f) =
        some f by
    exact h [] hnd
  clear hnd
  induction fnames with
  | nil => intro d _ f hf; exact absurd hf (List.not_mem_nil f)
  | cons a rest ih =>
    intro d hnd f hf
    simp only [List.map_cons, List.nodup_cons] at hnd
    rcases List.mem_cons.mp hf with rfl | hf'
    · rw [List.foldl_cons, getTag_foldl_absent rest _ _ hnd.1, getTag_setTag_self]
    · rw [List.foldl_cons]
      exact ih (setTag d (basename a) a) hnd.2 f hf'

theorem mapM_standardTool {fnames : List String} (b2f : List (String × String))
    (hlook : ∀ f ∈ fnames, getTag b2f (basename f) = some f)
    (g p : String → ℚ) (ag ap : ℚ) :
    ((fnames.map (fun f => (⟨basename f, g f, p f⟩ : ToolTrack))).mapM (fun tt =>
      match getTag b2f tt.file with
      | none => Except.error ("KeyError: " ++ tt.file)
      | some fname => Except.ok (fname,
          { track_gain := tt.gain, track_peak := tt.peak,
            album_gain := ag, album_peak := ap }))) =
      Except.ok (fnames.map (fun f =>
        (f, ({ track_gain := g f, track_peak := p f,
               album_gain := ag, album_peak := ap } : RGInfo)))) := by
  induction fnames with
  | nil => rfl
  | cons f rest ih =>
    have hf := hlook f (List.mem_cons_self f rest)
    have ihr := ih (fun a ha => hlook a (List.mem_cons_of_mem f ha))
    simp only [List.map_cons, List.mapM_cons, hf, ihr]
    rfl

/-- C10: `compute_gain` of the bs1770gain backend fails, before consulting
the external tool (the error is independent of the tool's output), whenever
two input paths share a basename; when all basenames are pairwise distinct
the pre-check passes and each result entry is keyed by the original full
path, in input order. -/
theorem C10_bs1770gain_basename_precheck :
    (∀ fnames tool, ¬ (fnames.map basename).Nodup →
      compute_gain fnames tool =
        .error "The bs1770gain backend cannot handle multiple files with the same basename.") ∧
    (∀ fnames (g p : String → ℚ) (ag ap : ℚ), (fnames.map basename).Nodup →
      compute_gain fnames (standardToolOutput fnames g p ag ap) =
        .ok (fnames.map (fun f =>
          (f, ({ track_gain := g f, track_peak := p f,
                 album_gain := ag, album_peak := ap } : RGInfo))))) := by
  constructor
  · intro fnames tool hdup
    rw [compute_gain]
    have : (basenamesToFnames fnames).length ≠ fnames.length := by
      intro h
      exact hdup ((b2f_length_eq_iff fnames).mp h)
    simp [this]
  · intro fnames g p ag ap hnd
    rw [compute_gain]
    have hlen : (basenamesToFnames fnames).length = fnames.length :=
      (b2f_length_eq_iff fnames).mpr hnd
    simp only [hlen, ne_eq, not_true_eq_false, if_false]
    exact mapM_standardTool _ (getTag_b2f hnd) g p ag ap

theorem C10_bs1770gain_witness :
    compute_gain ["/a/x.flac", "/b/x.flac"] ⟨0, 0, []⟩ =
      .error "The bs1770gain backend cannot handle multiple files with the same basename." ∧
    compute_gain ["/a/x.flac", "/a/y.flac"]
        (standardToolOutput ["/a/x.flac", "/a/y.flac"] (fun _ => -3) (fun _ => 1) (-4) 1) =
      .ok (["/a/x.flac", "/a/y.flac"].map (fun f =>
        (f, ({ track_gain := -3, track_peak := 1,
               album_gain := -4, album_peak := 1 } : RGInfo)))) :=
  ⟨C10_bs1770gain_basename_precheck.1 ["/a/x.flac", "/b/x.flac"] ⟨0, 0, []⟩
      (by with_unfolding_all decide),
   C10_bs1770gain_basename_precheck.2 ["/a/x.flac", "/a/y.flac"]
      (fun _ => -3) (fun _ => 1) (-4) 1 (by with_unfolding_all decide)⟩

/-! ## Grouping engine: RGTrackSet.MakeTrackSets

`MakeTrackSets` filters the stream by `gain_backend.supports_file`, groups
contiguous runs by `os.path.dirname` (itertools.groupby), buckets each run
by full grouping key in a dict (first-seen key order, appending to the
bucket), and yields the buckets in ascending key order.  A track set is
represented here by its member list. -/

deriving instance DecidableEq for RGTrack

/-- `itertools.groupby(tracks, lambda tr: os.path.dirname(tr.filename))`:
maximal contiguous runs of equal directory. -/
def groupRunsAux (d : String) (acc : List RGTrack) : List RGTrack → List (List RGTrack)
  | [] => [acc.reverse]
  | t :: ts =>
    if dirname t.filename = d then groupRunsAux d (t :: acc) ts
    else acc.reverse :: groupRunsAux (dirname t.filename) [t] ts

def groupRuns : List RGTrack → List (List RGTrack)
  | [] => []
  | t :: ts => groupRunsAux (dirname t.filename) [t] ts

/-- The `track_sets` dict-building loop: append to the bucket of an
existing key, otherwise add a new bucket at the end. -/
def addToBuckets (bs : List (List String × List RGTrack)) (tr : RGTrack) :
    List (List String × List RGTrack) :=
  match bs with
  | [] => [(tr.track_set_key, [tr])]
  | (k, g) :: rest =>
    if k = tr.track_set_key then (k, g ++ [tr]) :: rest
    else (k, g) :: addToBuckets rest tr

def buckets (run : List RGTrack) : List (List String × List RGTrack) :=
  run.foldl addToBuckets []

def bucketGet (bs : List (List String × List RGTrack)) (k : List String) : List RGTrack :=
  ((bs.find? (fun kv => kv.1 == k)).map Prod.snd).getD []

/-- Python tuple comparison for grouping keys: lexicographic over the six
string components, each compared by code points. -/
def keyNats (k : List String) : List (List ℕ) := k.map (fun s => s.data.map Char.toNat)

def keyLeb (a b : List String) : Bool := decide (keyNats a ≤ keyNats b)

/-- The per-run emission: `sorted(track_sets.keys())`, then one
RGTrackSet per key. -/
def emitRun (run : List RGTrack) : List (List RGTrack) :=
  (((buckets run).map Prod.fst).mergeSort keyLeb).map (fun k => bucketGet (buckets run) k)

/-- `RGTrackSet.MakeTrackSets`, with `supports_file` abstracted as a
predicate on filenames. -/
def MakeTrackSets (sup : String → Bool) (ts : List RGTrack) : List (List RGTrack) :=
  ((groupRuns (ts.filter (fun tr => sup tr.filename))).map emitRun).flatten

/-- The documented input contract of `MakeTrackSets`: tracks from the same
directory are yielded consecutively, or else they will not be grouped —
equivalently, any two tracks with equal directory land in the same
contiguous `groupby` run. -/
def DirContiguous (l : List RGTrack) : Prop :=
  ∀ r₁ ∈ groupRuns l, ∀ r₂ ∈ groupRuns l, ∀ a ∈ r₁, ∀ b ∈ r₂,
    dirname a.filename = dirname b.filename → r₁ = r₂

/-- The grouping key of an emitted track set (the key of its first member). -/
def setKey (s : List RGTrack) : List String :=
  match s with
  | [] => []
  | t :: _ => t.track_set_key

/-! ### Run lemmas -/

theorem groupRunsAux_join :
    ∀ (ts : List RGTrack) (d : String) (acc : List RGTrack),
      (groupRunsAux d acc ts).flatten = acc.reverse ++ ts := by
  intro ts
  induction ts with
  | nil => intro d acc; simp [groupRunsAux]
  | cons t rest ih =>
    intro d acc
    by_cases h : dirname t.filename = d
    · rw [groupRunsAux, if_pos h, ih]
      simp
    · rw [groupRunsAux, if_neg h]
      have hstep : (acc.reverse :: groupRunsAux (dirname t.filename) [t] rest).flatten =
          acc.reverse ++ (groupRunsAux (dirname t.filename) [t] rest).flatten := by
        simp
      rw [hstep, ih]
      simp

theorem groupRuns_join (l : List RGTrack) : (groupRuns l).flatten = l := by
  cases l with
  | nil => rfl
  | cons t rest =>
    rw [groupRuns, groupRunsAux_join]
    simp

/-! ### Bucket lemmas -/

theorem bucketGet_addToBuckets (bs : List (List String × List RGTrack)) (tr : RGTrack)
    (k : List String) :
    bucketGet (addToBuckets bs tr) k =
      bucketGet bs k ++ (if tr.track_set_key = k then [tr] else []) := by
  induction bs with
  | nil =>
    by_cases h : tr.track_set_key = k
    · subst h
      simp [addToBuckets, bucketGet, List.find?_cons]
    · simp only [addToBuckets, bucketGet]
      rw [List.find?_cons_of_neg _ (by simpa using h), if_neg h]
      simp
  | cons kv rest ih =>
    match kv with
    | (k', g) =>
      by_cases h1 : k' = tr.track_set_key
      · rw [addToBuckets, if_pos h1]
        by_cases h2 : k' = k
        · subst h2
          have hk : tr.track_set_key = k' := h1.symm
          simp [bucketGet, List.find?_cons, hk]
        · have h3 : ¬ tr.track_set_key = k := fun he => h2 (h1.trans he)
          simp only [bucketGet]
          rw [List.find?_cons_of_neg _ (by simpa using h2),
            List.find?_cons_of_neg _ (by simpa using h2), if_neg h3]
          simp
      · rw [addToBuckets, if_neg h1]
        by_cases h2 : k' = k
        · subst h2
          have h3 : ¬ tr.track_set_key = k' := fun he => h1 he.symm
          simp only [bucketGet]
          rw [List.find?_cons_of_pos _ (by simp), List.find?_cons_of_pos _ (by simp), if_neg h3]
          simp
        · simp only [bucketGet] at ih ⊢
          rw [List.find?_cons_of_neg _ (by simpa using h2),
            List.find?_cons_of_neg _ (by simpa using h2)]
          exact ih

theorem bucketGet_foldl (run : List RGTrack) :
    ∀ (bs : List (List String × List RGTrack)) (k : List String),
      bucketGet (run.foldl addToBuckets bs) k =
        bucketGet bs k ++ run.filter (fun tr => tr.track_set_key == k) := by
  induction run with
  | nil => intro bs k; simp
  | cons tr rest ih =>
    intro bs k
    rw [List.foldl_cons, ih, bucketGet_addToBuckets, List.filter_cons]
    by_cases h : tr.track_set_key = k
    · simp [h]
    · simp [h]

theorem bucketGet_buckets (run : List RGTrack) (k : List String) :
    bucketGet (buckets run) k = run.filter (fun tr => tr.track_set_key == k) := by
  rw [buckets, bucketGet_foldl]
  simp [bucketGet]

theorem keys_addToBuckets_mem {bs : List (List String × List RGTrack)} {tr : RGTrack}
    {k : List String} :
    k ∈ (addToBuckets bs tr).map Prod.fst ↔
      k ∈ bs.map Prod.fst ∨ k = tr.track_set_key := by
  induction bs with
  | nil => simp [addToBuckets]
  | cons kv rest ih =>
    match kv with
    | (k', g) =>
      by_cases h1 : k' = tr.track_set_key
      · rw [addToBuckets, if_pos h1]
        simp only [List.map_cons, List.mem_cons]
        constructor
        · rintro (rfl | h)
          · exact Or.inl (Or.inl rfl)
          · exact Or.inl (Or.inr h)
        · rintro ((rfl | h) | rfl)
          · exact Or.inl rfl
          · exact Or.inr h
          · exact Or.inl h1.symm
      · rw [addToBuckets, if_neg h1]
        simp only [List.map_cons, List.mem_cons, ih]
        tauto

theorem keys_addToBuckets_nodup {bs : List (List String × List RGTrack)} {tr : RGTrack}
    (h : (bs.map Prod.fst).Nodup) : ((addToBuckets bs tr).map Prod.fst).Nodup := by
  induction bs with
  | nil => simp [addToBuckets]
  | cons kv rest ih =>
    match kv with
    | (k', g) =>
      simp only [List.map_cons, List.nodup_cons] at h
      by_cases h1 : k' = tr.track_set_key
      · rw [addToBuckets, if_pos h1]
        simp only [List.map_cons, List.nodup_cons]
        exact h
      · rw [addToBuckets, if_neg h1]
        simp only [List.map_cons, List.nodup_cons]
        refine ⟨?_, ih h.2⟩
        rw [keys_addToBuckets_mem]
        rintro (hm | rfl)
        · exact h.1 hm
        · exact h1 rfl

theorem keys_foldl_buckets (run : List RGTrack) :
    ∀ bs : List (List String × List RGTrack),
      ((bs.map Prod.fst).Nodup → (((run.foldl addToBuckets bs).map Prod.fst).Nodup)) ∧
      (∀ k, k ∈ (run.foldl addToBuckets bs).map Prod.fst ↔
        k ∈ bs.map Prod.fst ∨ ∃ tr ∈ run, tr.track_set_key = k) := by
  induction run with
  | nil =>
    intro bs
    refine ⟨fun h => h, fun k => ?_⟩
    simp
  | cons tr rest ih =>
    intro bs
    constructor
    · intro h
      exact (ih (addToBuckets bs tr)).1 (keys_addToBuckets_nodup h)
    · intro k
      rw [List.foldl_cons, (ih (addToBuckets bs tr)).2 k, keys_addToBuckets_mem]
      simp only [List.mem_cons]
      constructor
      · rintro ((hm | rfl) | ⟨t, ht, hk⟩)
        · exact Or.inl hm
        · exact Or.inr ⟨tr, Or.inl rfl, rfl⟩
        · exact Or.inr ⟨t, Or.inr ht, hk⟩
      · rintro (hm | ⟨t, (rfl | ht), hk⟩)
        · exact Or.inl (Or.inl hm)
        · exact Or.inl (Or.inr hk.symm)
        · exact Or.inr ⟨t, ht, hk⟩

theorem keys_buckets_nodup (run : List RGTrack) : (((buckets run).map Prod.fst)).Nodup :=
  (keys_foldl_buckets run []).1 (by simp)

theorem keys_buckets_mem (run : List RGTrack) (k : List String) :
    k ∈ (buckets run).map Prod.fst ↔ ∃ tr ∈ run, tr.track_set_key = k := by
  rw [buckets, (keys_foldl_buckets run []).2 k]
  simp

/-! ### Sorted emission -/

theorem keyLeb_trans : ∀ a b c, keyLeb a b = true → keyLeb b c = true → keyLeb a c = true := by
  intro a b c hab hbc
  simp only [keyLeb, decide_eq_true_eq] at hab hbc ⊢
  exact le_trans hab hbc

theorem keyLeb_total : ∀ a b, (keyLeb a b || keyLeb b a) = true := by
  intro a b
  simp only [keyLeb, Bool.or_eq_true, decide_eq_true_eq]
  exact le_total _ _

theorem sortedKeys_pairwise (run : List RGTrack) :
    (((buckets run).map Prod.fst).mergeSort keyLeb).Pairwise
      (fun k₁ k₂ => keyLeb k₁ k₂ = true ∧ k₁ ≠ k₂) := by
  have hsorted := List.sorted_mergeSort keyLeb_trans keyLeb_total ((buckets run).map Prod.fst)
  have hnodup : (((buckets run).map Prod.fst).mergeSort keyLeb).Nodup :=
    (List.mergeSort_perm ((buckets run).map Prod.fst) keyLeb).symm.nodup
      (keys_buckets_nodup run)
  exact hsorted.and hnodup

theorem mem_emitRun {run : List RGTrack} {s : List RGTrack} (h : s ∈ emitRun run) :
    ∃ k, k ∈ (buckets run).map Prod.fst ∧
      s = run.filter (fun tr => tr.track_set_key == k) := by
  obtain ⟨k, hk, rfl⟩ := List.mem_map.mp h
  exact ⟨k, List.mem_mergeSort.mp hk, bucketGet_buckets run k⟩

theorem emitRun_cover {run : List RGTrack} {tr : RGTrack} (h : tr ∈ run) :
    ∃ s ∈ emitRun run, tr ∈ s := by
  have hk : tr.track_set_key ∈ (buckets run).map Prod.fst :=
    (keys_buckets_mem run _).mpr ⟨tr, h, rfl⟩
  refine ⟨bucketGet (buckets run) tr.track_set_key,
    List.mem_map_of_mem _ (List.mem_mergeSort.mpr hk), ?_⟩
  rw [bucketGet_buckets]
  exact List.mem_filter.mpr ⟨h, by simp⟩

theorem setKey_bucketGet {run : List RGTrack} {k : List String}
    (h : k ∈ (buckets run).map Prod.fst) : setKey (bucketGet (buckets run) k) = k := by
  rw [bucketGet_buckets]
  obtain ⟨tr, htr, hkey⟩ := (keys_buckets_mem run k).mp h
  have hmem : tr ∈ run.filter (fun tr => tr.track_set_key == k) :=
    List.mem_filter.mpr ⟨htr, by simp [hkey]⟩
  cases hf : run.filter (fun tr => tr.track_set_key == k) with
  | nil => rw [hf] at hmem; exact absurd hmem (List.not_mem_nil tr)
  | cons t rest =>
    have ht : t ∈ run.filter (fun tr => tr.track_set_key == k) := by
      rw [hf]; exact List.mem_cons_self t rest
    have := (List.mem_filter.mp ht).2
    simp only [beq_iff_eq] at this
    simp [setKey, this]

theorem mem_MakeTrackSets {sup : String → Bool} {ts : List RGTrack} {s : List RGTrack} :
    s ∈ MakeTrackSets sup ts ↔
      ∃ r ∈ groupRuns (ts.filter (fun tr => sup tr.filename)), s ∈ emitRun r := by
  rw [MakeTrackSets, List.mem_flatten]
  constructor
  · rintro ⟨er, her, hs⟩
    obtain ⟨r, hr, rfl⟩ := List.mem_map.mp her
    exact ⟨r, hr, hs⟩
  · rintro ⟨r, hr, hs⟩
    exact ⟨emitRun r, List.mem_map_of_mem _ hr, hs⟩

/-- C7: `MakeTrackSets` first drops every track rejected by
`supports_file`; under the directory-contiguity contract the surviving
tracks are partitioned so that two tracks are in the same emitted set iff
their grouping keys are equal, and within each contiguous directory run
the sets are emitted in strictly ascending grouping-key order. -/
theorem C7_make_track_sets (sup : String → Bool) (ts : List RGTrack)
    (hcontig : DirContiguous (ts.filter (fun tr => sup tr.filename))) :
    (∀ tr : RGTrack, (∃ s ∈ MakeTrackSets sup ts, tr ∈ s) ↔
      tr ∈ ts.filter (fun tr => sup tr.filename)) ∧
    (∀ s ∈ MakeTrackSets sup ts, ∀ a ∈ s, ∀ b ∈ s,
      a.track_set_key = b.track_set_key) ∧
    (∀ a b : RGTrack, a ∈ ts.filter (fun tr => sup tr.filename) →
      b ∈ ts.filter (fun tr => sup tr.filename) → a.track_set_key = b.track_set_key →
      ∃ s ∈ MakeTrackSets sup ts, a ∈ s ∧ b ∈ s) ∧
    (∀ r ∈ groupRuns (ts.filter (fun tr => sup tr.filename)),
      (emitRun r).Pairwise (fun s₁ s₂ =>
        keyLeb (setKey s₁) (setKey s₂) = true ∧ setKey s₁ ≠ setKey s₂)) := by
  refine ⟨?_, ?_, ?_, ?_⟩
  · intro tr
    constructor
    · rintro ⟨s, hs, htr⟩
      obtain ⟨r, hr, hsr⟩ := mem_MakeTrackSets.mp hs
      obtain ⟨k, _, rfl⟩ := mem_emitRun hsr
      have htr' : tr ∈ r := (List.mem_filter.mp htr).1
      have hjoin : tr ∈ (groupRuns (ts.filter (fun tr => sup tr.filename))).flatten :=
        List.mem_flatten.mpr ⟨r, hr, htr'⟩
      rw [groupRuns_join] at hjoin
      exact hjoin
    · intro htr
      rw [← groupRuns_join (ts.filter (fun tr => sup tr.filename))] at htr
      obtain ⟨r, hr, htr'⟩ := List.mem_flatten.mp htr
      obtain ⟨s, hs, hts⟩ := emitRun_cover htr'
      exact ⟨s, mem_MakeTrackSets.mpr ⟨r, hr, hs⟩, hts⟩
  · intro s hs a ha b hb
    obtain ⟨r, _, hsr⟩ := mem_MakeTrackSets.mp hs
    obtain ⟨k, _, rfl⟩ := mem_emitRun hsr
    have hak := (List.mem_filter.mp ha).2
    have hbk := (List.mem_filter.mp hb).2
    simp only [beq_iff_eq] at hak hbk
    rw [hak, hbk]
  · intro a b ha hb hkey
    have ha' : a ∈ (groupRuns (ts.filter (fun tr => sup tr.filename))).flatten := by
      rw [groupRuns_join]; exact ha
    have hb' : b ∈ (groupRuns (ts.filter (fun tr => sup tr.filename))).flatten := by
      rw [groupRuns_join]; exact hb
    obtain ⟨r₁, hr₁, har⟩ := List.mem_flatten.mp ha'
    obtain ⟨r₂, hr₂, hbr⟩ := List.mem_flatten.mp hb'
    have hdir : dirname a.filename = dirname b.filename := by
      have h1 : a.track_set_key.head? = b.track_set_key.head? := by rw [hkey]
      simp only [RGTrack.track_set_key, RGTrack.directory, List.head?_cons,
        Option.some.injEq] at h1
      exact h1
    have hrr : r₁ = r₂ := hcontig r₁ hr₁ r₂ hr₂ a har b hbr hdir
    subst hrr
    have hk : a.track_set_key ∈ (buckets r₁).map Prod.fst :=
      (keys_buckets_mem r₁ _).mpr ⟨a, har, rfl⟩
    refine ⟨bucketGet (buckets r₁) a.track_set_key,
      mem_MakeTrackSets.mpr ⟨r₁, hr₁,
        List.mem_map_of_mem _ (List.mem_mergeSort.mpr hk)⟩, ?_, ?_⟩
    · rw [bucketGet_buckets]
      exact List.mem_filter.mpr ⟨har, by simp⟩
    · rw [bucketGet_buckets]
      exact List.mem_filter.mpr ⟨hbr, beq_iff_eq.mpr hkey.symm⟩
  · intro r _
    rw [emitRun, List.pairwise_map]
    refine (sortedKeys_pairwise r).imp_of_mem ?_
    intro k₁ k₂ hk₁ hk₂ hle
    rw [setKey_bucketGet (List.mem_mergeSort.mp hk₁),
      setKey_bucketGet (List.mem_mergeSort.mp hk₂)]
    exact hle

theorem C7_make_track_sets_witness :
    ∃ s ∈ MakeTrackSets (fun f => f != "/m/skip.flac")
      [⟨"/m/a.flac", "F", [("album", "X")]⟩, ⟨"/m/b.flac", "F", [("album", "X")]⟩,
       ⟨"/m/skip.flac", "F", [("album", "X")]⟩, ⟨"/n/c.flac", "F", [("album", "Y")]⟩],
      (⟨"/m/a.flac", "F", [("album", "X")]⟩ : RGTrack) ∈ s ∧
      (⟨"/m/b.flac", "F", [("album", "X")]⟩ : RGTrack) ∈ s :=
  (C7_make_track_sets (fun f => f != "/m/skip.flac")
      [⟨"/m/a.flac", "F", [("album", "X")]⟩, ⟨"/m/b.flac", "F", [("album", "X")]⟩,
       ⟨"/m/skip.flac", "F", [("album", "X")]⟩, ⟨"/n/c.flac", "F", [("album", "Y")]⟩]
      (by unfold DirContiguous; decide)).2.2.1
    ⟨"/m/a.flac", "F", [("album", "X")]⟩ ⟨"/m/b.flac", "F", [("album", "X")]⟩
    (by decide) (by decide) (by decide)

end rganalysis
